import Mathlib

/-!
Verification of the Topic Memory Engine of the `mem` repository.

This file shallowly embeds the core of `src/pipeline/topic_db.py`,
`src/pipeline/topics_route.py`, `src/pipeline/actions.py` and
`src/pipeline/calendar_from_texts.py`:

* topics are rows of the `topics` table, loaded as the flat list that
  `get_topic_tree` returns;
* decay scores live in `ℚ` (Python computes with binary floats; the claims
  under study are about the algebraic structure of the computation, so the
  score space is embedded as exact rationals and the transcendental
  per-activity weight `0.5 ** (days / 14)` is a function parameter `w`);
* SQLite tables become Lean lists, `dict` lookups become list lookups that
  preserve insertion order exactly as Python dicts do.

Python recursion has no fuel; the embedded recursions take an explicit
fuel argument that is always called with `topics.length + 1`, which is
enough fuel for every acyclic forest (on a cyclic store the Python code
would raise `RecursionError`; the claims under study only concern acyclic
stores).
-/

namespace Mem

/-- A row of the `topics` table as returned by `get_topic_tree`.
The `display_name` field is `Modelled from the spec:` the copy of
`topic_db.py` under `src/` has no `display_name` column, but the spec
(§3, §4.3), the repository's tests (`test_topic_db.py` imports
`set_display_name` and asserts on `t["display_name"]`) and the caller
`topics_route.py` (`insert_topic(..., display_name=display_name)`) all use
it; it is carried here as an optional label that the functions taken
verbatim from `src/` ignore. -/
structure Topic where
  id : Nat
  name : String
  parent_id : Option Nat
  summary : Option String
  display_name : Option String
deriving Repr, DecidableEq

/-- `by_parent` dict of the renderers: the children of `p` in list order
(`by_parent.setdefault(t["parent_id"], []).append(t)` groups the rows per
parent preserving their order, which is what `filter` does). -/
def byParent (topics : List Topic) (p : Option Nat) : List Topic :=
  topics.filter (fun t => t.parent_id == p)

/-- Python truthiness of an optional string (`None` and `""` are falsy). -/
def truthyStr : Option String → Bool
  | none => false
  | some s => s ≠ ""

/-- The `f": {summary}" if t["summary"] else ""` fragment of the renderers. -/
def summaryPart : Option String → String
  | none => ""
  | some s => if s = "" then "" else ": " ++ s

/-- Name used for a topic in the pruned-output view.
`Modelled from the spec:` "Display uses `display_name` when present, else
`slug`"; the `src/` copy of `format_topic_tree_for_output` shows the bare
`name` because its rows have no `display_name` column. -/
def displayOf (t : Topic) : String :=
  t.display_name.getD t.name

/-- One output line before string formatting: indentation depth, the shown
name, and the summary that follows it (if any). -/
abbrev Entry := Nat × String × Option String

/-- `"\t" * indent + "- " + shown + summaryPart` — the exact line layout of
the renderers in `topic_db.py`. -/
def mkLine (e : Entry) : String :=
  String.mk (List.replicate e.1 '\t') ++ "- " ++ e.2.1 ++ summaryPart e.2.2

/-- `"\n".join(lines)`. -/
def joinLines : List String → String
  | [] => ""
  | [l] => l
  | l :: rest => l ++ "\n" ++ joinLines rest

/-- `DECAY_THRESHOLD = 0.1` from `topic_db.py`. -/
def DECAY_THRESHOLD : ℚ := 1 / 10

/-! ### `format_topic_tree_for_output`: the mark-active pass

`_mark_active(parent_id)` iterates the children of `parent_id`; it first
recurses into a child's subtree, then, if the child scores at least the
threshold or the recursion reported an active descendant, it adds the
child to `include` **and returns `True` immediately** (the remaining
siblings are not visited).  `markGo` is the loop body, parameterised by
the recursive call so that the two functions are not mutually recursive in
Lean; `markActive` loses one unit of fuel per nesting level. -/

/-- Loop body of `_mark_active`: walk the sibling list threading the
`include` set (a list, membership-equivalent to Python's `set`), with the
source's early `return True` after the first included sibling. -/
def markGo (sc : Nat → ℚ) (θ : ℚ) (recurse : Nat → List Nat → List Nat × Bool) :
    List Topic → List Nat → List Nat × Bool
  | [], inc => (inc, false)
  | t :: rest, inc =>
    let r := recurse t.id inc
    if θ ≤ sc t.id ∨ r.2 = true then (t.id :: r.1, true)
    else markGo sc θ recurse rest r.1

/-- `_mark_active` of `format_topic_tree_for_output`, with fuel. -/
def markActive (bp : Option Nat → List Topic) (sc : Nat → ℚ) (θ : ℚ) :
    Nat → Option Nat → List Nat → List Nat × Bool
  | 0, _, inc => (inc, false)
  | fuel + 1, p, inc =>
    markGo sc θ (fun i inc' => markActive bp sc θ fuel (some i) inc') (bp p) inc

/-- The `include` set of `format_topic_tree_for_output`: all root ids are
added up front, then `_mark_active(None)` runs over the whole forest. -/
def includedSet (topics : List Topic) (sc : Nat → ℚ) (θ : ℚ) : List Nat :=
  let init := (byParent topics none).map (·.id)
  (markActive (byParent topics) sc θ (topics.length + 1) none init).1

/-- Loop body of the `_render` closure of `format_topic_tree_for_output`:
a topic outside `include` is skipped together with its whole subtree. -/
def renderGo (inc : List Nat) (recurse : Nat → Nat → List Entry) (indent : Nat) :
    List Topic → List Entry
  | [] => []
  | t :: rest =>
    if t.id ∈ inc then
      (indent, displayOf t, t.summary) :: recurse t.id (indent + 1)
        ++ renderGo inc recurse indent rest
    else renderGo inc recurse indent rest

/-- `_render` of `format_topic_tree_for_output`, with fuel. -/
def renderTree (bp : Option Nat → List Topic) (inc : List Nat) :
    Nat → Option Nat → Nat → List Entry
  | 0, _, _ => []
  | fuel + 1, p, indent =>
    renderGo inc (fun i ind => renderTree bp inc fuel (some i) ind) indent (bp p)

/-- The lines of the pruned-output view, before string formatting. -/
def outputEntries (topics : List Topic) (sc : Nat → ℚ) (θ : ℚ) : List Entry :=
  renderTree (byParent topics) (includedSet topics sc θ) (topics.length + 1) none 0

/-- `format_topic_tree_for_output` from `topic_db.py`. -/
def format_topic_tree_for_output (topics : List Topic) (sc : Nat → ℚ) (θ : ℚ) : String :=
  if topics = [] then "(no topics yet)"
  else joinLines ((outputEntries topics sc θ).map mkLine)

/-! ### `format_topic_tree_for_routing` -/

/-- Loop body of the `_render` closure of `format_topic_tree_for_routing`:
every topic is shown; the summary is attached only when the score reaches
the threshold and the summary is truthy. -/
def routingGo (sc : Nat → ℚ) (θ : ℚ) (recurse : Nat → Nat → List Entry) (indent : Nat) :
    List Topic → List Entry
  | [] => []
  | t :: rest =>
    (indent, t.name, if θ ≤ sc t.id ∧ truthyStr t.summary = true then t.summary else none)
      :: recurse t.id (indent + 1) ++ routingGo sc θ recurse indent rest

/-- `_render` of `format_topic_tree_for_routing`, with fuel. -/
def routingTree (bp : Option Nat → List Topic) (sc : Nat → ℚ) (θ : ℚ) :
    Nat → Option Nat → Nat → List Entry
  | 0, _, _ => []
  | fuel + 1, p, indent =>
    routingGo sc θ (fun i ind => routingTree bp sc θ fuel (some i) ind) indent (bp p)

/-- The lines of the routing view, before string formatting. -/
def routingEntries (topics : List Topic) (sc : Nat → ℚ) (θ : ℚ) : List Entry :=
  routingTree (byParent topics) sc θ (topics.length + 1) none 0

/-- `format_topic_tree_for_routing` from `topic_db.py`. -/
def format_topic_tree_for_routing (topics : List Topic) (sc : Nat → ℚ) (θ : ℚ) : String :=
  if topics = [] then "(no topics yet)"
  else joinLines ((routingEntries topics sc θ).map mkLine)

/-! ### `compute_decay_scores`

The source computes `own_scores[tid] += 0.5 ** (days / 14.0)` over all
activity rows (`days = (now - ts).total_seconds() / 86400.0`), then runs a
post-order `_accumulate` writing `total_scores[tid] = own + Σ child
totals` into a dict, starting from the roots.  Under the single-parent
table shape, each node is written exactly once and its written value
depends only on its own subtree, so the threaded dict purifies to the
recursion `computeTotal` below; the per-activity weight
`0.5 ** (days / 14)` is transcendental, so it is carried as the function
parameter `w` applied to the exponent `days / 14`. -/

/-- An `activity` table row: owning topic and timestamp (seconds). -/
structure ActivityRow where
  topic_id : Nat
  source : String
  context : String
  timestamp : ℚ
deriving Repr, DecidableEq

/-- `own_scores[tid]`: the decayed contributions of the topic's own
activity rows (`defaultdict(float)` — zero when the topic has none). -/
def ownScore (acts : List ActivityRow) (now : ℚ) (w : ℚ → ℚ) (tid : Nat) : ℚ :=
  ((acts.filter (fun a => a.topic_id == tid)).map
    (fun a => w (((now - a.timestamp) / 86400) / 14))).sum

/-- Ids of the direct children of `tid` (the `children_of` dict). -/
def childrenIds (topics : List Topic) (tid : Nat) : List Nat :=
  (topics.filter (fun t => t.parent_id == some tid)).map (·.id)

/-- Purified `_accumulate`: subtree total with fuel. -/
def computeTotal (own : Nat → ℚ) (children : Nat → List Nat) :
    Nat → Nat → ℚ
  | 0, _ => 0
  | fuel + 1, tid => own tid + ((children tid).map (computeTotal own children fuel)).sum

/-- `compute_decay_scores` from `topic_db.py`: the returned mapping, as a
function of topic id. -/
def compute_decay_scores (topics : List Topic) (acts : List ActivityRow)
    (now : ℚ) (w : ℚ → ℚ) (tid : Nat) : ℚ :=
  computeTotal (ownScore acts now w) (childrenIds topics) (topics.length + 1) tid

/-! ### The Topic Store: CRUD operations of `topic_db.py`

The two SQLite tables become two lists; `id INTEGER PRIMARY KEY` becomes
the `nextId` counter; writes are committed immediately, so each operation
is a plain function on the store. -/

/-- The persistent store: the `topics` and `activity` tables plus the next
auto-assigned primary key. -/
structure Store where
  topics : List Topic
  activities : List ActivityRow
  nextId : Nat
deriving Repr, DecidableEq

/-- `get_topic_id(name)` — `SELECT id FROM topics WHERE name = ?`, first
row or `None`. -/
def getTopicId (st : Store) (name : String) : Option Nat :=
  (st.topics.find? (fun t => t.name == name)).map (·.id)

/-- Python truthiness of `get_topic_id`'s result (`None` and `0` falsy);
`record_activity` guards with `if not topic_id`. -/
def falsyId : Option Nat → Bool
  | none => true
  | some i => i == 0

/-- `insert_topic(name, parent_name=None, summary=None, display_name=None)`.
A truthy `parent_name` is looked up; when absent the topic is inserted
with `parent_id = NULL`.  A `name` collision (the UNIQUE constraint's
`IntegrityError`) leaves the store unchanged and returns the existing id.
The `display_name` argument is `Modelled from the spec:` the `src/` copy
has the signature `insert_topic(name, parent_name=None, summary=None)`,
while the spec (§4.1), the tests and the caller `topics_route.py` give it
the extra optional `display_name`; the inserted row stores it.
`resolveParent` is its parent lookup: a truthy `parent_name` is looked
up; a missing row (or falsy name) leaves `parent_id = NULL`. -/
def resolveParent (st : Store) : Option String → Option Nat
  | none => none
  | some p => if p = "" then none else getTopicId st p

/-- See `resolveParent` for the parent lookup this performs first. -/
def insert_topic (st : Store) (name : String) (parent_name : Option String)
    (summary : Option String) (display_name : Option String) : Nat × Store :=
  let parent_id : Option Nat := resolveParent st parent_name
  match st.topics.find? (fun t => t.name == name) with
  | some t => (t.id, st)
  | none =>
    (st.nextId,
      { st with
        topics := st.topics ++ [⟨st.nextId, name, parent_id, summary, display_name⟩]
        nextId := st.nextId + 1 })

/-- `rename_topic(old_name, new_name)`: no-op when `old_name` is absent or
`new_name` is already taken; otherwise the row is renamed in place. -/
def rename_topic (st : Store) (old_name new_name : String) : Store :=
  if (st.topics.find? (fun t => t.name == old_name)).isNone then st
  else if (st.topics.find? (fun t => t.name == new_name)).isSome then st
  else
    { st with
      topics := st.topics.map (fun t =>
        if t.name == old_name then { t with name := new_name } else t) }

/-- `move_topic(name, new_parent_name)`: no-op when `name` is absent or a
truthy `new_parent_name` does not exist; a falsy `new_parent_name` moves
the topic to the root. -/
def move_topic (st : Store) (name : String) (new_parent_name : Option String) : Store :=
  if (st.topics.find? (fun t => t.name == name)).isNone then st
  else
    let truthyParent := match new_parent_name with
      | none => false
      | some p => p ≠ ""
    if truthyParent then
      match new_parent_name.bind (fun p => getTopicId st p) with
      | none => st
      | some pid =>
        { st with
          topics := st.topics.map (fun t =>
            if t.name == name then { t with parent_id := some pid } else t) }
    else
      { st with
        topics := st.topics.map (fun t =>
          if t.name == name then { t with parent_id := none } else t) }

/-- `update_topic_summary(name, summary)`. -/
def update_topic_summary (st : Store) (name summary : String) : Store :=
  { st with
    topics := st.topics.map (fun t =>
      if t.name == name then { t with summary := some summary } else t) }

/-- `record_activity(topic_name, source, context, activity_date=None)`:
auto-creates the topic via `insert_topic` when the id lookup is falsy,
then appends one activity row; a missing `activity_date` defaults to the
current time (`TIMESTAMP DEFAULT CURRENT_TIMESTAMP`), passed in as `now`. -/
def record_activity (st : Store) (topic_name source context : String)
    (activity_date : Option ℚ) (now : ℚ) : Store :=
  let tid0 := getTopicId st topic_name
  let (tid, st') :=
    if falsyId tid0 then insert_topic st topic_name none none none
    else (tid0.getD 0, st)
  { st' with
    activities := st'.activities ++
      [⟨tid, source, context, activity_date.getD now⟩] }

/-! ### The Reconciliation Coordinator: `route_all` of `topics_route.py` -/

/-- One `existing_topics` value after the source's coercions (a bare
string becomes `note` with empty summary; a list summary is joined). -/
structure ExistingUpdate where
  note : String
  updated_summary : String
deriving Repr, DecidableEq

/-- One `new_topics` element of the parsed oracle result. -/
structure NewTopic where
  name : String
  parent : Option String
  summary : String
  display_name : Option String
deriving Repr, DecidableEq

/-- The parsed oracle result consumed by `route_all` (Python dicts keep
insertion order, hence the association lists). -/
structure RouteResult where
  existing_topics : List (String × ExistingUpdate)
  new_topics : List NewTopic
  renames : List (String × String)
  moves : List (String × Option String)
deriving Repr, DecidableEq

/-- Loop body of the `existing_topics` phase of `route_all`: one activity
row (source `"all"`, context the note) plus, when the proposed summary is
non-empty, a summary overwrite that bumps the update count. -/
def existingStep (activity_date : Option ℚ) (now : ℚ) (acc : Nat × Store)
    (p : String × ExistingUpdate) : Nat × Store :=
  let s := record_activity acc.2 p.1 "all" p.2.note activity_date now
  if p.2.updated_summary ≠ "" then
    (acc.1 + 1, update_topic_summary s p.1 p.2.updated_summary)
  else (acc.1, s)

/-- Loop body of the `new_topics` phase of `route_all`: an insert (with
the optional parent, summary and display name) immediately followed by
one activity row whose context is the summary, bumping the count. -/
def newTopicStep (activity_date : Option ℚ) (now : ℚ) (acc : Nat × Store)
    (nt : NewTopic) : Nat × Store :=
  let s := (insert_topic acc.2 nt.name nt.parent (some nt.summary) nt.display_name).2
  let s := record_activity s nt.name "all" nt.summary activity_date now
  (acc.1 + 1, s)

/-- The mutation phase of `route_all`: renames, then moves, then
existing-topic updates, then new-topic creations, in the source's fixed
order.  Returns `(updated_count, store)`. -/
def applyResult (r : RouteResult) (activity_date : Option ℚ) (now : ℚ)
    (st : Store) : Nat × Store :=
  let st := r.renames.foldl (fun s p => rename_topic s p.1 p.2) st
  let st := r.moves.foldl (fun s p => move_topic s p.1 p.2) st
  let acc := r.existing_topics.foldl (existingStep activity_date now) (0, st)
  r.new_topics.foldl (newTopicStep activity_date now) acc

/-- Substring occurrence over character lists (Python's `sub in s`). -/
def hasSub (sub : List Char) : List Char → Bool
  | [] => sub.isEmpty
  | c :: rest => sub.isPrefixOf (c :: rest) || hasSub sub rest

/-- Python's substring test `sub in s`. -/
def pyContains (s sub : String) : Bool :=
  hasSub sub.data s.data

/-- Characters stripped by Python's `str.strip()`. -/
def pySpace (c : Char) : Bool :=
  c = ' ' || c = '\t' || c = '\n' || c = '\x0d' || c = '\x0b' || c = '\x0c'

/-- Python's `str.strip()`. -/
def pyStrip (s : String) : String :=
  String.mk (((s.data.dropWhile pySpace).reverse.dropWhile pySpace).reverse)

/-- One splitting step per character, with fuel (structural so that the
kernel can evaluate it); the separator is non-empty at every use site. -/
def pySplitAux (sep : List Char) : Nat → List Char → List Char → List (List Char)
  | 0, _, acc => [acc.reverse]
  | _ + 1, [], acc => [acc.reverse]
  | fuel + 1, c :: rest, acc =>
    if sep.isPrefixOf (c :: rest) then
      acc.reverse :: pySplitAux sep fuel (List.drop (sep.length - 1) rest) []
    else pySplitAux sep fuel rest (c :: acc)

/-- Python's `s.split(sep)` for a non-empty separator (also the behaviour
of `str.splitOn` used by `_parse_json`). -/
def pySplit (s sep : String) : List String :=
  (pySplitAux sep.data (s.data.length + 1) s.data []).map String.mk

/-- The fence-scanning loop of `_parse_json`: Python's
`range(len(blocks) - 2, 0, -2)` — the odd-position blocks (fence
interiors) scanned from the last towards the first. -/
def fenceIdxs (n : Nat) : List Nat :=
  (List.range n).reverse.filter (fun i => 1 ≤ i ∧ i ≤ n - 2 ∧ i % 2 = (n - 2) % 2)

/-- `_parse_json` from `topics_route.py`, generic in the result of
`json.loads` (`jl` returns `none` where Python raises `JSONDecodeError`).
A text containing a ```` ```json ```` fence parses the last such block
(up to its closing fence); otherwise the fenced blocks are scanned from
last to first for one that starts with a brace, which is then parsed
(a parse failure there propagates — the loop does not continue);
otherwise the trimmed raw text is parsed. -/
def _parse_json {α : Type} (jl : String → Option α) (text : String) : Option α :=
  let text := pyStrip text
  if pyContains text "```json" then
    let lastBlock := (pySplit text "```json").getLastD ""
    let lastBlock :=
      if pyContains lastBlock "```" then (pySplit lastBlock "```").headD ""
      else lastBlock
    jl (pyStrip lastBlock)
  else if pyContains text "```" then
    let blocks := pySplit text "```"
    match (fenceIdxs blocks.length).findSome? (fun i =>
      let candidate := pyStrip (blocks.getD i "")
      if List.isPrefixOf "\x7b".data candidate.data then some candidate else none) with
    | some candidate => jl candidate
    | none => jl text
  else jl text

/-- `route_all` from `generate` onward: the oracle is a function of the
prompt and the attempt index; a first parse failure triggers exactly one
retry with the identical prompt; a second failure abandons the pass with
zero updates, no parsed result, the store untouched and a warning.
Returns `(updated_count, parsed result, store, prompts sent to the
oracle, parse-failure warning surfaced)`. -/
def routeAllModel (oracle : String → Nat → String)
    (jl : String → Option RouteResult) (prompt : String)
    (activity_date : Option ℚ) (now : ℚ) (st : Store) :
    Nat × Option RouteResult × Store × List String × Bool :=
  let raw := oracle prompt 0
  match _parse_json jl raw with
  | some r =>
    let (c, st') := applyResult r activity_date now st
    (c, some r, st', [prompt], false)
  | none =>
    let raw2 := oracle prompt 1
    match _parse_json jl raw2 with
    | some r =>
      let (c, st') := applyResult r activity_date now st
      (c, some r, st', [prompt, prompt], false)
    | none => (0, none, st, [prompt, prompt], true)

/-! ### Action dispatch: `actions.py` and the scheduling handler

`dispatch` walks the configured actions; for each it collects the subset
of its output-schema keys that are present and truthy in the oracle
result, skips the action when none are, and otherwise invokes the
handler.  External handlers run behind `_run_external_handler`, whose
`try/except` catches every failure; the single built-in handler
(`_BUILTIN_HANDLERS = {"auto-calendar": _handle_auto_calendar}`) is called
directly, so an exception raised inside it propagates out of `dispatch`.
External effects (the oracle-independent subprocesses and the calendar)
are function parameters; computations that can raise return through an
explicit `Option String` exception slot, `none` meaning no exception. -/

/-- A JSON value as found in the parsed oracle result. -/
inductive JVal where
  | null : JVal
  | bool : Bool → JVal
  | num : ℚ → JVal
  | str : String → JVal
  | arr : List JVal → JVal
  | obj : List (String × JVal) → JVal

/-- Python truthiness of a JSON value (`dispatch` tests
`if key in result and result[key]`). -/
def truthyJ : JVal → Bool
  | .null => false
  | .bool b => b
  | .num q => q ≠ 0
  | .str s => s ≠ ""
  | .arr l => !l.isEmpty
  | .obj l => !l.isEmpty

/-- Handler slot of a loaded action: the `"builtin"` sentinel or the path
of an external executable. -/
inductive Handler where
  | builtin : Handler
  | external : String → Handler
deriving Repr, DecidableEq

/-- A loaded action (`load_actions` element): only the pieces `dispatch`
reads — the name, the output-schema keys, and the handler slot. -/
structure ActionSpec where
  name : String
  output_schema : List String
  handler : Handler

/-- Observable steps taken by `dispatch` and by the scheduling handler. -/
inductive Event where
  | builtinRun : String → Event
  | noHandlerWarn : String → Event
  | externalRun : String → String → Event
  | externalWarn : String → Event
  | externalFailWarn : String → Event
  | flagValidated : String → Event
  | expiryCheck : Event
deriving Repr, DecidableEq

/-- One `schedule_flags` element after field extraction
(`flag.get("person", "")`, `flag.get("context", "")`). -/
structure ScheduleFlag where
  person : String
  context : String
deriving Repr, DecidableEq

/-- String field of a JSON object, with Python's `.get(key, "")` default. -/
def jStrField (v : JVal) (key : String) : String :=
  match v with
  | .obj fields =>
    match fields.find? (fun p => p.1 == key) with
    | some (_, .str s) => s
    | _ => ""
  | _ => ""

/-- The oracle's `schedule_flags` value (a JSON array of objects) as flag
records; `process_schedule_flags` reads only the two string fields. -/
def parseFlags : JVal → List ScheduleFlag
  | .arr l => l.map (fun v => ⟨jStrField v "person", jStrField v "context"⟩)
  | _ => []

/-- The first loop of `process_schedule_flags`: keep the first flag per
truthy person (`if person and person not in seen`). -/
def dedupFlags : List ScheduleFlag → List String → List ScheduleFlag
  | [], _ => []
  | f :: rest, seen =>
    if f.person ≠ "" ∧ f.person ∉ seen then f :: dedupFlags rest (f.person :: seen)
    else dedupFlags rest seen

/-- The second loop of `process_schedule_flags`: validate-and-create per
unique flag (`vac`, the external `validate_and_create` — its calendar
side effects are out of scope; an `Except.error` is a raised Python
exception, which aborts the loop and skips the expiry check), then the
unconditional `_expire_holds()` call, recorded as `Event.expiryCheck`. -/
def psfGo (vac : String → String → Except String Unit) :
    List ScheduleFlag → List Event → List Event × Option String
  | [], evs => (evs ++ [Event.expiryCheck], none)
  | f :: rest, evs =>
    match vac f.person f.context with
    | .ok _ => psfGo vac rest (evs ++ [Event.flagValidated f.person])
    | .error e => (evs, some e)

/-- `process_schedule_flags(flags)` from `calendar_from_texts.py`:
events emitted and the exception, if one escaped. -/
def process_schedule_flags (vac : String → String → Except String Unit)
    (flags : List ScheduleFlag) : List Event × Option String :=
  psfGo vac (dedupFlags flags []) []

/-- Result of `subprocess.run` for an external handler. -/
structure ProcOut where
  stdout : String
  stderr : String
  returncode : Int
deriving Repr, DecidableEq

/-- `_run_external_handler(name, handler_path, flags)`: the subprocess
call (`runProc`, given the handler path and the collected flags — the
source serialises them to JSON on stdin) sits inside `try/except`, so the
function always returns: stdout is surfaced, a non-zero exit is logged as
a warning, and any raised exception (including the timeout) is caught and
logged. -/
def _run_external_handler (runProc : String → List (String × JVal) → Except String ProcOut)
    (name handler_path : String) (flags : List (String × JVal)) : List Event :=
  match runProc handler_path flags with
  | .ok r =>
    [Event.externalRun name handler_path] ++
      (if r.returncode ≠ 0 then [Event.externalWarn name] else [])
  | .error _ => [Event.externalFailWarn name]

/-- The per-action flag collection of `dispatch`: the schema keys present
and truthy in the oracle result, with their values, in schema order. -/
def presentFlags (schema : List String) (result : List (String × JVal)) :
    List (String × JVal) :=
  schema.filterMap (fun key =>
    match result.find? (fun p => p.1 == key) with
    | some (_, v) => if truthyJ v then some (key, v) else none
    | none => none)

/-- The loop of `dispatch(actions, result)`.  An action with no present
truthy flags is skipped.  A built-in action runs the registered handler
on the first present field's value — the registry holds exactly
`auto-calendar`, whose handler is `process_schedule_flags`; an exception
it raises propagates, ending the loop (second component `some e`).  An
unknown built-in name only logs a warning.  External handlers run behind
`_run_external_handler` and never abort the loop. -/
def dispatchGo (vac : String → String → Except String Unit)
    (runProc : String → List (String × JVal) → Except String ProcOut)
    (result : List (String × JVal)) :
    List ActionSpec → List Event → List Event × Option String
  | [], evs => (evs, none)
  | a :: rest, evs =>
    let flags := presentFlags a.output_schema result
    if flags.isEmpty then dispatchGo vac runProc result rest evs
    else
      match a.handler with
      | .builtin =>
        if a.name = "auto-calendar" then
          let firstVal := (flags.headD ("", JVal.null)).2
          let pr := process_schedule_flags vac (parseFlags firstVal)
          match pr.2 with
          | none => dispatchGo vac runProc result rest (evs ++ [Event.builtinRun a.name] ++ pr.1)
          | some e => (evs ++ [Event.builtinRun a.name] ++ pr.1, some e)
        else dispatchGo vac runProc result rest (evs ++ [Event.noHandlerWarn a.name])
      | .external path =>
        dispatchGo vac runProc result rest
          (evs ++ _run_external_handler runProc a.name path flags)

/-- `dispatch(actions, result)` from `actions.py`: the events observed and
the escaped exception, if any.  `dispatch` takes no reference to the
Topic Store, so it cannot alter mutations already applied. -/
def dispatch (vac : String → String → Except String Unit)
    (runProc : String → List (String × JVal) → Except String ProcOut)
    (actions : List ActionSpec) (result : List (String × JVal)) :
    List Event × Option String :=
  dispatchGo vac runProc result actions []

/-! ### Concrete fixtures used by counterexamples and witnesses -/

/-- Four topics: a root whose three children all score above threshold
(the fixture of `test_all_active_siblings_included`). -/
def siblingTopics : List Topic := [
  ⟨1, "root", none, some "Root", none⟩,
  ⟨2, "alpha", some 1, some "First child", none⟩,
  ⟨3, "beta", some 1, some "Second child", none⟩,
  ⟨4, "gamma", some 1, some "Third child", none⟩]

/-- A single root topic with no activity and no descendants. -/
def lonelyRoot : List Topic := [⟨1, "lonely", none, none, none⟩]

/-- Parent with one child; only the child has an activity row. -/
def parentChildTopics : List Topic :=
  [⟨1, "parent", none, none, none⟩, ⟨2, "child", some 1, none, none⟩]

/-- One activity row for the child, 14 days (= one half-life) before the
reference time `14 * 86400`. -/
def childActs : List ActivityRow := [⟨2, "test", "x", 0⟩]

/-- A store holding a single root topic `work`. -/
def workStore : Store := ⟨[⟨1, "work", none, none, none⟩], [], 2⟩

/-- Depth function witnessing acyclicity of `parentChildTopics`. -/
def depthPC : Nat → Nat := fun x => if x = 2 then 1 else 0

/-- A single root topic carrying a display name (the fixture of
`test_output_uses_display_name`). -/
def displayTopics : List Topic :=
  [⟨1, "ai-and-coding", none, some "AI stuff", some "AI and Coding"⟩]

/-- The empty store. -/
def emptyStore : Store := ⟨[], [], 1⟩

/-- A proposed new topic, as the oracle would emit it. -/
def demoNewTopic : NewTopic := ⟨"surfing", some "outdoor", "Waves and boards", some "Surfing"⟩

/-- An oracle result proposing exactly one new topic. -/
def demoRouteResult : RouteResult := ⟨[], [demoNewTopic], [], []⟩

/-- The built-in scheduling action, as `load_actions` returns it. -/
def autoCalAction : ActionSpec := ⟨"auto-calendar", ["schedule_flags"], .builtin⟩

/-- An external action owning the `notify_msg` output field. -/
def notifyAction : ActionSpec := ⟨"notify", ["notify_msg"], .external "/opt/notify.sh"⟩

/-- An oracle result carrying one scheduling flag and one notify field. -/
def flaggedResult : List (String × JVal) :=
  [("schedule_flags", .arr [.obj [("person", .str "bob"), ("context", .str "hi")]]),
   ("notify_msg", .str "yes")]

/-- A `validate_and_create` that raises on every call. -/
def boomVac : String → String → Except String Unit := fun _ _ => .error "boom"

/-- A `validate_and_create` that always succeeds. -/
def okVac : String → String → Except String Unit := fun _ _ => .ok ()

/-- An external-handler subprocess that exits cleanly. -/
def okProc : String → List (String × JVal) → Except String ProcOut :=
  fun _ _ => .ok ⟨"", "", 0⟩

/-- An external-handler subprocess that raises (e.g. a timeout). -/
def boomProc : String → List (String × JVal) → Except String ProcOut :=
  fun _ _ => .error "timeout"

/-- An action was reached by the `dispatch` loop: its handler ran (or its
missing-builtin warning was logged). -/
def dispatched (a : ActionSpec) (evs : List Event) : Prop :=
  match a.handler with
  | .builtin => Event.builtinRun a.name ∈ evs ∨ Event.noHandlerWarn a.name ∈ evs
  | .external path => Event.externalRun a.name path ∈ evs ∨ Event.externalFailWarn a.name ∈ evs

/-! ## Theorems -/

/-- The second component of `markGo` never adds when it reports `false`. -/
theorem markGo_false_unchanged (sc : Nat → ℚ) (θ : ℚ)
    (recurse : Nat → List Nat → List Nat × Bool)
    (hrec : ∀ i inc, (recurse i inc).2 = false → (recurse i inc).1 = inc) :
    ∀ l inc, (markGo sc θ recurse l inc).2 = false →
      (markGo sc θ recurse l inc).1 = inc := by
  intro l
  induction l with
  | nil => intro inc _; rfl
  | cons t rest ih =>
    intro inc h
    by_cases hc : θ ≤ sc t.id ∨ (recurse t.id inc).2 = true
    · simp only [markGo, if_pos hc] at h
      cases h
    · simp only [markGo, if_neg hc] at h ⊢
      have h2 : (recurse t.id inc).2 = false := by
        cases hb : (recurse t.id inc).2
        · rfl
        · exact absurd (Or.inr hb) hc
      rw [hrec _ _ h2] at h ⊢
      exact ih inc h

/-- `markActive` never adds when it reports `false`. -/
theorem markActive_false_unchanged (bp : Option Nat → List Topic) (sc : Nat → ℚ) (θ : ℚ) :
    ∀ fuel p inc, (markActive bp sc θ fuel p inc).2 = false →
      (markActive bp sc θ fuel p inc).1 = inc := by
  intro fuel
  induction fuel with
  | zero => intro p inc _; rfl
  | succ n ih =>
    intro p inc h
    exact markGo_false_unchanged sc θ _ (fun i inc' => ih (some i) inc') (bp p) inc h

/-- `markGo` only grows the `include` set. -/
theorem markGo_mono (sc : Nat → ℚ) (θ : ℚ)
    (recurse : Nat → List Nat → List Nat × Bool)
    (hrec : ∀ i inc, inc ⊆ (recurse i inc).1) :
    ∀ l inc, inc ⊆ (markGo sc θ recurse l inc).1 := by
  intro l
  induction l with
  | nil => intro inc; exact fun _ h => h
  | cons t rest ih =>
    intro inc
    by_cases hc : θ ≤ sc t.id ∨ (recurse t.id inc).2 = true
    · simp only [markGo, if_pos hc]
      exact fun x hx => List.mem_cons_of_mem _ (hrec t.id inc hx)
    · simp only [markGo, if_neg hc]
      exact fun x hx => ih _ (hrec t.id inc hx)

/-- `markActive` only grows the `include` set. -/
theorem markActive_mono (bp : Option Nat → List Topic) (sc : Nat → ℚ) (θ : ℚ) :
    ∀ fuel p inc, inc ⊆ (markActive bp sc θ fuel p inc).1 := by
  intro fuel
  induction fuel with
  | zero => intro p inc; exact fun _ h => h
  | succ n ih =>
    intro p inc
    exact markGo_mono sc θ _ (fun i inc' => ih (some i) inc') (bp p) inc

/-- Every root id is in the `include` set of the pruned-output view. -/
theorem root_mem_includedSet (topics : List Topic) (sc : Nat → ℚ) (θ : ℚ)
    (t : Topic) (ht : t ∈ topics) (hroot : t.parent_id = none) :
    t.id ∈ includedSet topics sc θ := by
  have hmem : t ∈ byParent topics none := by
    simp only [byParent, List.mem_filter]
    exact ⟨ht, by simp [hroot]⟩
  have hinit : t.id ∈ (byParent topics none).map (·.id) :=
    List.mem_map.mpr ⟨t, hmem, rfl⟩
  exact markActive_mono (byParent topics) sc θ (topics.length + 1) none _ hinit

/-- A topic of the processed list whose id is in `include` gets a line. -/
theorem renderGo_mem (inc : List Nat) (recurse : Nat → Nat → List Entry)
    (indent : Nat) (t : Topic) :
    ∀ l, t ∈ l → t.id ∈ inc →
      (indent, displayOf t, t.summary) ∈ renderGo inc recurse indent l := by
  intro l
  induction l with
  | nil => intro h; cases h
  | cons u rest ih =>
    intro hmem hinc
    rcases List.mem_cons.mp hmem with rfl | hrest
    · simp only [renderGo, if_pos hinc]
      exact List.mem_cons_self _ _
    · by_cases hu : u.id ∈ inc
      · simp only [renderGo, if_pos hu]
        exact List.mem_cons_of_mem _ (List.mem_append_right _ (ih hrest hinc))
      · simp only [renderGo, if_neg hu]
        exact ih hrest hinc

/-- C1: with a root and three sibling children all scoring `1.0 ≥
DECAY_THRESHOLD`, the pruned-output view renders only the root and the
first sibling — `_mark_active` returns after the first included sibling,
so `beta` and `gamma` are dropped even though they score above threshold,
contradicting the function's own docstring ("Include a topic if score >=
threshold OR it has any descendant above threshold") and the repository's
regression test `test_all_active_siblings_included`. -/
theorem c1_sibling_early_return_eval :
    format_topic_tree_for_output siblingTopics (fun _ => 1) DECAY_THRESHOLD
        = "- root: Root\n\t- alpha: First child" ∧
      DECAY_THRESHOLD ≤ (1 : ℚ) ∧
      ∀ e ∈ outputEntries siblingTopics (fun _ => 1) DECAY_THRESHOLD,
        e.2.1 ≠ "beta" := by
  refine ⟨?_, by norm_num [DECAY_THRESHOLD], ?_⟩
  · norm_num [format_topic_tree_for_output, outputEntries, includedSet, markActive, markGo,
      renderTree, renderGo, byParent, siblingTopics, DECAY_THRESHOLD, displayOf, joinLines,
      mkLine, summaryPart]
    decide
  · norm_num [outputEntries, includedSet, markActive, markGo, renderTree, renderGo,
      byParent, siblingTopics, DECAY_THRESHOLD, displayOf]
    decide

/-- C2 counterexample: a root topic with score `0 < DECAY_THRESHOLD` and
no descendants is nevertheless rendered in the pruned-output view — the
code adds every root to `include` unconditionally (and the repository's
test `test_root_topics_always_included` asserts exactly this), so the
claim that such a root is omitted is false. -/
theorem c2_zero_score_root_rendered :
    outputEntries lonelyRoot (fun _ => 0) DECAY_THRESHOLD = [(0, "lonely", none)] ∧
      format_topic_tree_for_output lonelyRoot (fun _ => 0) DECAY_THRESHOLD = "- lonely" ∧
      ¬ DECAY_THRESHOLD ≤ (0 : ℚ) := by
  refine ⟨?_, ?_, by norm_num [DECAY_THRESHOLD]⟩
  · norm_num [outputEntries, includedSet, markActive, markGo, renderTree, renderGo,
      byParent, lonelyRoot, DECAY_THRESHOLD, displayOf]
  · norm_num [format_topic_tree_for_output, outputEntries, includedSet, markActive, markGo,
      renderTree, renderGo, byParent, lonelyRoot, DECAY_THRESHOLD, displayOf, joinLines,
      mkLine, summaryPart]
    decide

/-- C2 (amended): root topics do not follow the threshold rule — every
root topic appears in the pruned-output view regardless of its score
(the inclusion rule with threshold propagation applies only below the
roots). -/
theorem c2_roots_always_shown (topics : List Topic) (sc : Nat → ℚ) (θ : ℚ)
    (t : Topic) (ht : t ∈ topics) (hroot : t.parent_id = none) :
    t.id ∈ includedSet topics sc θ ∧
      (0, displayOf t, t.summary) ∈ outputEntries topics sc θ := by
  have hinc := root_mem_includedSet topics sc θ t ht hroot
  refine ⟨hinc, ?_⟩
  have hmem : t ∈ byParent topics none := by
    simp only [byParent, List.mem_filter]
    exact ⟨ht, by simp [hroot]⟩
  simp only [outputEntries, renderTree]
  exact renderGo_mem _ _ 0 t (byParent topics none) hmem hinc

/-- Witness for C2 (amended): the zero-scoring root `lonely` is included
and rendered. -/
theorem c2_roots_always_shown_witness :
    1 ∈ includedSet lonelyRoot (fun _ => 0) DECAY_THRESHOLD ∧
      (0, "lonely", none) ∈ outputEntries lonelyRoot (fun _ => 0) DECAY_THRESHOLD := by
  simpa [lonelyRoot, displayOf] using
    c2_roots_always_shown lonelyRoot (fun _ => 0) DECAY_THRESHOLD
      ⟨1, "lonely", none, none, none⟩ (by simp [lonelyRoot]) rfl

/-- A child id returned by `children_of` is the id of a stored topic whose
parent is the key. -/
theorem childrenIds_mem (topics : List Topic) (x c : Nat)
    (hc : c ∈ childrenIds topics x) :
    ∃ u ∈ topics, u.id = c ∧ u.parent_id = some x := by
  obtain ⟨u, hu, rfl⟩ := List.mem_map.mp hc
  have := List.mem_filter.mp hu
  refine ⟨u, this.1, rfl, ?_⟩
  simpa using this.2

/-- Fuel stability of the rollup: on an acyclic forest (witnessed by a
depth function that grows along child edges and is bounded by the number
of topics), the subtree total of a stored topic is the same for every
sufficient fuel. -/
theorem computeTotal_stable (topics : List Topic) (own : Nat → ℚ)
    (depth : Nat → Nat)
    (hdepth : ∀ u ∈ topics, ∀ p, u.parent_id = some p → depth p < depth u.id)
    (hbound : ∀ u ∈ topics, depth u.id < topics.length) :
    ∀ (m x : Nat), (∃ u ∈ topics, u.id = x) → topics.length - depth x ≤ m →
      ∀ f₁ f₂, topics.length - depth x ≤ f₁ → topics.length - depth x ≤ f₂ →
        computeTotal own (childrenIds topics) f₁ x =
          computeTotal own (childrenIds topics) f₂ x := by
  intro m
  induction m with
  | zero =>
    intro x hx hm f₁ f₂ h₁ h₂
    obtain ⟨u, hu, rfl⟩ := hx
    have := hbound u hu
    omega
  | succ n ih =>
    intro x hx hm f₁ f₂ h₁ h₂
    obtain ⟨u, hu, rfl⟩ := hx
    have hlt := hbound u hu
    obtain ⟨g₁, rfl⟩ : ∃ g, f₁ = g + 1 := ⟨f₁ - 1, by omega⟩
    obtain ⟨g₂, rfl⟩ : ∃ g, f₂ = g + 1 := ⟨f₂ - 1, by omega⟩
    simp only [computeTotal]
    congr 1
    congr 1
    apply List.map_congr_left
    intro c hc
    obtain ⟨v, hv, rfl, hvp⟩ := childrenIds_mem topics u.id c hc
    have hdc : depth u.id < depth v.id := hdepth v hv u.id hvp
    have hbc := hbound v hv
    exact ih v.id ⟨v, hv, rfl⟩ (by omega) g₁ g₂ (by omega) (by omega)

/-- C5: on an acyclic store (witnessed by a depth function increasing
along child edges and bounded by the topic count), `compute_decay_scores`
satisfies the exact rollup equation at every stored topic: the total
score is the own score — the sum over the topic's activity rows of the
decay weight applied to `age_in_days / 14` — plus the sum of the totals
of its direct children.  The transcendental weight `0.5 ** x` is the
function parameter `w`; the equation holds for every weight, in
particular for the decay law. -/
theorem c5_rollup_exact (topics : List Topic) (acts : List ActivityRow)
    (now : ℚ) (w : ℚ → ℚ) (depth : Nat → Nat)
    (hdepth : ∀ u ∈ topics, ∀ p, u.parent_id = some p → depth p < depth u.id)
    (hbound : ∀ u ∈ topics, depth u.id < topics.length)
    (t : Topic) (_ht : t ∈ topics) :
    compute_decay_scores topics acts now w t.id =
      ownScore acts now w t.id +
        ((childrenIds topics t.id).map
          (compute_decay_scores topics acts now w)).sum := by
  show computeTotal (ownScore acts now w) (childrenIds topics)
      (topics.length + 1) t.id = _
  simp only [computeTotal, compute_decay_scores]
  congr 1
  congr 1
  apply List.map_congr_left
  intro c hc
  obtain ⟨v, hv, rfl, hvp⟩ := childrenIds_mem topics t.id c hc
  exact computeTotal_stable topics (ownScore acts now w) depth hdepth hbound
    (topics.length - depth v.id) v.id ⟨v, hv, rfl⟩ (le_refl _)
    topics.length (topics.length + 1) (by omega) (by omega)

/-- Witness for C5: the rollup equation evaluated at the parent of the
two-topic fixture. -/
theorem c5_rollup_exact_witness :
    compute_decay_scores parentChildTopics childActs (14 * 86400)
        (fun _ => (1 : ℚ) / 2) 1 =
      ownScore childActs (14 * 86400) (fun _ => (1 : ℚ) / 2) 1 +
        ((childrenIds parentChildTopics 1).map
          (compute_decay_scores parentChildTopics childActs (14 * 86400)
            (fun _ => (1 : ℚ) / 2))).sum := by
  apply c5_rollup_exact parentChildTopics childActs (14 * 86400)
    (fun _ => (1 : ℚ) / 2) depthPC ?_ (by decide) ⟨1, "parent", none, none, none⟩
    (List.mem_cons_self _ _)
  intro u hu p hp
  simp only [parentChildTopics, List.mem_cons, List.not_mem_nil, or_false] at hu
  rcases hu with rfl | rfl
  · exact Option.noConfusion hp
  · injection hp with h
    subst h
    decide

/-- C6 counterexample: topic `parent` (id 1) has no activity rows, yet its
total score is `1/2`, inherited from its child's activity one half-life
old — so "no activity implies total score zero" fails for parents of
active children.  (The weight function is the constant `1/2`, which is
the value of the true decay weight `0.5 ^ (days / 14)` at the only age
occurring in the fixture, 14 days.) -/
theorem c6_parent_inherits_child_score :
    childActs.filter (fun a => a.topic_id == 1) = [] ∧
      compute_decay_scores parentChildTopics childActs (14 * 86400)
        (fun _ => (1 : ℚ) / 2) 1 = 1 / 2 ∧
      (1 : ℚ) / 2 ≠ 0 := by
  refine ⟨by decide, ?_, by norm_num⟩
  norm_num [compute_decay_scores, computeTotal, ownScore, childrenIds,
    parentChildTopics, childActs]

/-- C6 (amended): a topic with no activity records in its entire subtree
(itself and all of its descendants, here any child-closed set `S` of ids
with no attributed activity) has total score exactly `0`. -/
theorem c6_no_subtree_activity_zero (topics : List Topic) (acts : List ActivityRow)
    (now : ℚ) (w : ℚ → ℚ) (S : List Nat) (tid : Nat) (hmem : tid ∈ S)
    (hclosed : ∀ x ∈ S, ∀ c ∈ childrenIds topics x, c ∈ S)
    (hempty : ∀ x ∈ S, acts.filter (fun a => a.topic_id == x) = []) :
    compute_decay_scores topics acts now w tid = 0 := by
  have hown : ∀ x ∈ S, ownScore acts now w x = 0 := by
    intro x hx
    simp only [ownScore, hempty x hx, List.map_nil, List.sum_nil]
  suffices h : ∀ fuel t, t ∈ S →
      computeTotal (ownScore acts now w) (childrenIds topics) fuel t = 0 by
    exact h _ _ hmem
  intro fuel
  induction fuel with
  | zero => intro t _; rfl
  | succ n ih =>
    intro t htS
    simp only [computeTotal, hown t htS]
    rw [List.sum_eq_zero, add_zero]
    intro x hx
    obtain ⟨c, hc, rfl⟩ := List.mem_map.mp hx
    exact ih c (hclosed t htS c hc)

/-- Witness for C6 (amended): a lone topic with no activity at all scores
zero. -/
theorem c6_no_subtree_activity_zero_witness :
    compute_decay_scores lonelyRoot [] 0 (fun _ => 1) 1 = 0 := by
  exact c6_no_subtree_activity_zero lonelyRoot [] 0 (fun _ => 1) [1] 1
    (by decide) (by decide) (by decide)

/-- C10: inserting a fresh slug with a parent name that matches no
existing topic neither fails nor creates the parent: the new topic is
appended as a root (`parent_id = none`) with the next id, which is
returned; the activity table is untouched. -/
theorem c10_insert_with_missing_parent (st : Store) (name parent : String)
    (s d : Option String)
    (hname : ∀ u ∈ st.topics, u.name ≠ name)
    (hparent : ∀ u ∈ st.topics, u.name ≠ parent) :
    insert_topic st name (some parent) s d =
      (st.nextId,
        { topics := st.topics ++ [⟨st.nextId, name, none, s, d⟩],
          activities := st.activities, nextId := st.nextId + 1 }) := by
  have hf1 : st.topics.find? (fun t => t.name == name) = none := by
    rw [List.find?_eq_none]
    intro u hu
    simp [hname u hu]
  have hf2 : st.topics.find? (fun t => t.name == parent) = none := by
    rw [List.find?_eq_none]
    intro u hu
    simp [hparent u hu]
  by_cases hp : parent = ""
  · simp [insert_topic, resolveParent, hp, hf1]
  · simp [insert_topic, resolveParent, hp, getTopicId, hf1, hf2]

/-- Witness for C10: inserting `child-topic` under the nonexistent parent
`ghost` into the one-topic store. -/
theorem c10_insert_with_missing_parent_witness :
    insert_topic workStore "child-topic" (some "ghost") none none =
      (2, { topics := [⟨1, "work", none, none, none⟩,
                       ⟨2, "child-topic", none, none, none⟩],
            activities := [], nextId := 3 }) := by
  simpa [workStore] using
    c10_insert_with_missing_parent workStore "child-topic" "ghost" none none
      (by decide) (by decide)

/-- A topic named after `nt` exists and owns an activity row recorded by
the reconciliation pass with context `nt.summary`. -/
def topicActivityWitness (nt : NewTopic) (s : Store) : Prop :=
  ∃ u ∈ s.topics, u.name = nt.name ∧
    ∃ a ∈ s.activities, a.topic_id = u.id ∧ a.source = "all" ∧ a.context = nt.summary

/-- `record_activity` when the topic lookup already succeeds: the store
only gains the one activity row attributed to the found topic. -/
theorem record_activity_of_find (s : Store) (n src ctx : String)
    (d : Option ℚ) (now : ℚ) (u0 : Topic)
    (h : s.topics.find? (fun t => t.name == n) = some u0) :
    record_activity s n src ctx d now =
      { s with activities := s.activities ++ [⟨u0.id, src, ctx, d.getD now⟩] } := by
  by_cases h0 : u0.id = 0
  · simp [record_activity, getTopicId, insert_topic, h, falsyId, h0]
  · simp [record_activity, getTopicId, h, falsyId, h0]

/-- After `insert_topic`, a topic with the requested name is found, and
the returned id is its id. -/
theorem insert_topic_find (s : Store) (name : String) (p sm d : Option String) :
    ∃ u0, ((insert_topic s name p sm d).2).topics.find? (fun t => t.name == name)
        = some u0 ∧
      u0.name = name ∧ (insert_topic s name p sm d).1 = u0.id := by
  cases hf : s.topics.find? (fun t => t.name == name) with
  | some u =>
    refine ⟨u, ?_, ?_, ?_⟩
    · simp [insert_topic, hf]
    · have := List.find?_some hf
      simpa using this
    · simp [insert_topic, hf]
  | none =>
    refine ⟨⟨s.nextId, name, resolveParent s p, sm, d⟩, ?_, rfl, ?_⟩
    · simp [insert_topic, hf, List.find?_append]
    · simp [insert_topic, hf]

/-- The `new_topics` step establishes the topic-with-activity witness for
the topic it processes. -/
theorem newTopicStep_estab (activity_date : Option ℚ) (now : ℚ)
    (acc : Nat × Store) (nt : NewTopic) :
    topicActivityWitness nt (newTopicStep activity_date now acc nt).2 := by
  obtain ⟨u0, hfind, hname, -⟩ :=
    insert_topic_find acc.2 nt.name nt.parent (some nt.summary) nt.display_name
  have hrec := record_activity_of_find
    (insert_topic acc.2 nt.name nt.parent (some nt.summary) nt.display_name).2
    nt.name "all" nt.summary activity_date now u0 hfind
  refine ⟨u0, ?_, hname, ⟨u0.id, "all", nt.summary, activity_date.getD now⟩, ?_, rfl, rfl, rfl⟩
  · simp only [newTopicStep, hrec]
    exact List.mem_of_find?_eq_some hfind
  · simp only [newTopicStep, hrec]
    exact List.mem_append_right _ (List.mem_singleton.mpr rfl)

/-- `insert_topic` preserves the topic-with-activity witness. -/
theorem taw_insert (nt : NewTopic) (s : Store) (n : String) (p sm d : Option String)
    (h : topicActivityWitness nt s) :
    topicActivityWitness nt (insert_topic s n p sm d).2 := by
  obtain ⟨u, hu, hname, a, ha, hid, hsrc, hctx⟩ := h
  cases hf : s.topics.find? (fun t => t.name == n) with
  | some v => exact ⟨u, by simp [insert_topic, hf, hu], hname, a, by simp [insert_topic, hf, ha], hid, hsrc, hctx⟩
  | none =>
    exact ⟨u, by simp only [insert_topic, hf]; exact List.mem_append_left _ hu, hname,
      a, by simp [insert_topic, hf, ha], hid, hsrc, hctx⟩

/-- `record_activity` preserves the topic-with-activity witness. -/
theorem taw_record (nt : NewTopic) (s : Store) (n src ctx : String)
    (d : Option ℚ) (now : ℚ) (h : topicActivityWitness nt s) :
    topicActivityWitness nt (record_activity s n src ctx d now) := by
  have h' : topicActivityWitness nt
      (if falsyId (getTopicId s n) then insert_topic s n none none none
       else ((getTopicId s n).getD 0, s)).2 := by
    by_cases hb : falsyId (getTopicId s n)
    · simpa [hb] using taw_insert nt s n none none none h
    · simpa [hb] using h
  obtain ⟨u, hu, hname, a, ha, hid, hsrc, hctx⟩ := h'
  exact ⟨u, by simpa [record_activity] using hu, hname, a,
    by simp only [record_activity]; exact List.mem_append_left _ ha, hid, hsrc, hctx⟩

/-- `update_topic_summary` preserves the topic-with-activity witness. -/
theorem taw_update (nt : NewTopic) (s : Store) (n sm : String)
    (h : topicActivityWitness nt s) :
    topicActivityWitness nt (update_topic_summary s n sm) := by
  obtain ⟨u, hu, hname, a, ha, hid, hsrc, hctx⟩ := h
  refine ⟨if u.name == n then { u with summary := some sm } else u, ?_, ?_, a, ha, ?_, hsrc, hctx⟩
  · simp only [update_topic_summary]
    exact List.mem_map_of_mem _ hu
  · by_cases hb : (u.name == n) = true
    · rw [if_pos hb]
      exact hname
    · rw [if_neg hb]
      exact hname
  · by_cases hb : (u.name == n) = true
    · rw [if_pos hb]
      exact hid
    · rw [if_neg hb]
      exact hid

/-- The `new_topics` fold preserves the topic-with-activity witness. -/
theorem taw_foldl (nt : NewTopic) (activity_date : Option ℚ) (now : ℚ) :
    ∀ (l : List NewTopic) (acc : Nat × Store), topicActivityWitness nt acc.2 →
      topicActivityWitness nt (l.foldl (newTopicStep activity_date now) acc).2 := by
  intro l
  induction l with
  | nil => intro acc h; exact h
  | cons x rest ih =>
    intro acc h
    refine ih _ ?_
    exact taw_record nt _ x.name "all" x.summary activity_date now
      (taw_insert nt acc.2 x.name x.parent (some x.summary) x.display_name h)

/-- A topic owning an activity row has positive own score under a
positive weight function. -/
theorem ownScore_pos (acts : List ActivityRow) (now : ℚ) (w : ℚ → ℚ)
    (tid : Nat) (a : ActivityRow) (hw : ∀ x, 0 < w x) (ha : a ∈ acts)
    (hid : a.topic_id = tid) : 0 < ownScore acts now w tid := by
  have hmem : a ∈ acts.filter (fun b => b.topic_id == tid) := by
    simp [List.mem_filter, ha, hid]
  apply List.sum_pos
  · intro x hx
    obtain ⟨b, -, rfl⟩ := List.mem_map.mp hx
    exact hw _
  · intro hnil
    rw [List.map_eq_nil_iff] at hnil
    rw [hnil] at hmem
    cases hmem

/-- Own scores are nonnegative under a positive weight function. -/
theorem ownScore_nonneg (acts : List ActivityRow) (now : ℚ) (w : ℚ → ℚ)
    (hw : ∀ x, 0 < w x) (tid : Nat) : 0 ≤ ownScore acts now w tid := by
  apply List.sum_nonneg
  intro x hx
  obtain ⟨b, -, rfl⟩ := List.mem_map.mp hx
  exact le_of_lt (hw _)

/-- Subtree totals are nonnegative when own scores are. -/
theorem computeTotal_nonneg (own : Nat → ℚ) (ch : Nat → List Nat)
    (h : ∀ t, 0 ≤ own t) : ∀ (fuel : Nat) (tid : Nat),
      0 ≤ computeTotal own ch fuel tid := by
  intro fuel
  induction fuel with
  | zero => intro tid; exact le_refl 0
  | succ n ih =>
    intro tid
    refine add_nonneg (h tid) (List.sum_nonneg ?_)
    intro x hx
    obtain ⟨c, -, rfl⟩ := List.mem_map.mp hx
    exact ih c

/-- A topic owning an activity row has positive total decay score. -/
theorem compute_decay_scores_pos (topics : List Topic) (acts : List ActivityRow)
    (now : ℚ) (w : ℚ → ℚ) (tid : Nat) (a : ActivityRow) (hw : ∀ x, 0 < w x)
    (ha : a ∈ acts) (hid : a.topic_id = tid) :
    0 < compute_decay_scores topics acts now w tid := by
  show 0 < computeTotal (ownScore acts now w) (childrenIds topics) (topics.length + 1) tid
  simp only [computeTotal]
  refine add_pos_of_pos_of_nonneg (ownScore_pos acts now w tid a hw ha hid)
    (List.sum_nonneg ?_)
  intro x hx
  obtain ⟨c, -, rfl⟩ := List.mem_map.mp hx
  exact computeTotal_nonneg _ _ (ownScore_nonneg acts now w hw) _ c

/-- C3: (i) inserting a fresh slug appends exactly one row carrying the
requested name, summary and display name, assigned the next id, which is
returned; (ii) for every entry of the oracle's `new_topics` list, the
reconciliation pass (renames, then moves, then existing updates, then
new-topic creations, in `applyResult`'s fixed order) leaves a topic of
that name in the store together with an activity row of source `"all"`
and context the proposed summary attributed to it, so the topic's decay
score is strictly positive under any positive weight function. -/
theorem c3_new_topics_inserted_and_active :
    (∀ (st : Store) (name : String) (parent : Option String) (summ dn : Option String),
      (∀ u ∈ st.topics, u.name ≠ name) →
      ∃ u, (insert_topic st name parent summ dn).2.topics = st.topics ++ [u] ∧
        u.id = st.nextId ∧ u.name = name ∧ u.summary = summ ∧ u.display_name = dn ∧
        (insert_topic st name parent summ dn).1 = st.nextId) ∧
    (∀ (r : RouteResult) (activity_date : Option ℚ) (now now' : ℚ) (st : Store)
      (w : ℚ → ℚ), (∀ x, 0 < w x) → ∀ nt ∈ r.new_topics,
      ∃ u ∈ (applyResult r activity_date now st).2.topics, u.name = nt.name ∧
        ∃ a ∈ (applyResult r activity_date now st).2.activities,
          a.topic_id = u.id ∧ a.source = "all" ∧ a.context = nt.summary ∧
          0 < compute_decay_scores (applyResult r activity_date now st).2.topics
            (applyResult r activity_date now st).2.activities now' w u.id) := by
  constructor
  · intro st name parent summ dn hfresh
    have hf : st.topics.find? (fun t => t.name == name) = none := by
      rw [List.find?_eq_none]
      intro u hu
      simp [hfresh u hu]
    exact ⟨⟨st.nextId, name, resolveParent st parent, summ, dn⟩,
      by simp [insert_topic, hf], rfl, rfl, rfl, rfl, by simp [insert_topic, hf]⟩
  · intro r activity_date now now' st w hw nt hnt
    have htaw : topicActivityWitness nt (applyResult r activity_date now st).2 := by
      obtain ⟨l1, l2, hsplit⟩ := List.append_of_mem hnt
      simp only [applyResult, hsplit, List.foldl_append, List.foldl_cons]
      exact taw_foldl nt activity_date now l2 _ (newTopicStep_estab activity_date now _ nt)
    obtain ⟨u, hu, hname, a, ha, hid, hsrc, hctx⟩ := htaw
    exact ⟨u, hu, hname, a, ha, hid, hsrc, hctx,
      compute_decay_scores_pos _ _ now' w u.id a hw ha hid⟩

/-- Witness for C3: inserting `surfing` into the one-topic store, and a
pass whose oracle result proposes exactly that new topic. -/
theorem c3_new_topics_inserted_and_active_witness :
    (∃ u, (insert_topic workStore "surfing" (some "outdoor") (some "Waves")
            (some "Surfing")).2.topics = workStore.topics ++ [u] ∧
        u.id = workStore.nextId ∧ u.name = "surfing" ∧ u.summary = some "Waves" ∧
        u.display_name = some "Surfing" ∧
        (insert_topic workStore "surfing" (some "outdoor") (some "Waves")
          (some "Surfing")).1 = workStore.nextId) ∧
    (∃ u ∈ (applyResult demoRouteResult none 0 workStore).2.topics,
        u.name = demoNewTopic.name ∧
        ∃ a ∈ (applyResult demoRouteResult none 0 workStore).2.activities,
          a.topic_id = u.id ∧ a.source = "all" ∧ a.context = demoNewTopic.summary ∧
          0 < compute_decay_scores (applyResult demoRouteResult none 0 workStore).2.topics
            (applyResult demoRouteResult none 0 workStore).2.activities 0
            (fun _ => 1) u.id) := by
  exact ⟨c3_new_topics_inserted_and_active.1 workStore "surfing" (some "outdoor")
      (some "Waves") (some "Surfing") (by decide),
    c3_new_topics_inserted_and_active.2 demoRouteResult none 0 0 workStore
      (fun _ => 1) (fun _ => one_pos) demoNewTopic (by simp [demoRouteResult])⟩

/-- C4: when the oracle's response fails structured parsing and the retry
response fails as well, `route_all` sends exactly two oracle calls with
the identical prompt, returns an update count of zero and no parsed
result, leaves the store exactly as it was (no mutation), and surfaces
the parse warning. -/
theorem c4_parse_failure_abandons_pass (oracle : String → Nat → String)
    (jl : String → Option RouteResult) (prompt : String)
    (activity_date : Option ℚ) (now : ℚ) (st : Store)
    (h1 : _parse_json jl (oracle prompt 0) = none)
    (h2 : _parse_json jl (oracle prompt 1) = none) :
    routeAllModel oracle jl prompt activity_date now st =
      (0, none, st, [prompt, prompt], true) := by
  simp only [routeAllModel, h1, h2]

/-- Witness for C4: an oracle that always answers unparseable text. -/
theorem c4_parse_failure_abandons_pass_witness :
    routeAllModel (fun _ _ => "not json") (fun _ => none) "p" none 0 workStore =
      (0, none, workStore, ["p", "p"], true) := by
  exact c4_parse_failure_abandons_pass (fun _ _ => "not json") (fun _ => none)
    "p" none 0 workStore (by decide) (by decide)

/-- When `validate_and_create` never raises, the scheduling handler never
raises. -/
theorem psf_no_exc (vac : String → String → Except String Unit)
    (hvac : ∀ p c, ∃ u, vac p c = .ok u) :
    ∀ (flags : List ScheduleFlag) (evs : List Event),
      (psfGo vac flags evs).2 = none := by
  intro flags
  induction flags with
  | nil => intro evs; rfl
  | cons f rest ih =>
    intro evs
    obtain ⟨u, hu⟩ := hvac f.person f.context
    simp only [psfGo, hu]
    exact ih _

/-- When `validate_and_create` never raises, the scheduling handler always
reaches the hold-expiry check. -/
theorem psf_expiry (vac : String → String → Except String Unit)
    (hvac : ∀ p c, ∃ u, vac p c = .ok u) :
    ∀ (flags : List ScheduleFlag) (evs : List Event),
      Event.expiryCheck ∈ (psfGo vac flags evs).1 := by
  intro flags
  induction flags with
  | nil =>
    intro evs
    exact List.mem_append_right _ (List.mem_singleton.mpr rfl)
  | cons f rest ih =>
    intro evs
    obtain ⟨u, hu⟩ := hvac f.person f.context
    simp only [psfGo, hu]
    exact ih _

/-- `dispatchGo` only appends to the event log. -/
theorem dispatchGo_mem_mono (vac : String → String → Except String Unit)
    (runProc : String → List (String × JVal) → Except String ProcOut)
    (result : List (String × JVal)) :
    ∀ (actions : List ActionSpec) (evs : List Event) (e : Event), e ∈ evs →
      e ∈ (dispatchGo vac runProc result actions evs).1 := by
  intro actions
  induction actions with
  | nil => intro evs e he; exact he
  | cons a rest ih =>
    intro evs e he
    simp only [dispatchGo]
    by_cases hf : (presentFlags a.output_schema result).isEmpty
    · simp only [hf, if_true]
      exact ih evs e he
    · simp only [hf, if_false]
      cases hh : a.handler with
      | builtin =>
        by_cases hn : a.name = "auto-calendar"
        · rw [if_pos hn]
          cases hexc : (process_schedule_flags vac
              (parseFlags ((presentFlags a.output_schema result).headD ("", JVal.null)).2)).2 with
          | none => exact ih _ e (List.mem_append_left _ (List.mem_append_left _ he))
          | some ex => exact List.mem_append_left _ (List.mem_append_left _ he)
        · rw [if_neg hn]
          exact ih _ e (List.mem_append_left _ he)
      | external path =>
        exact ih _ e (List.mem_append_left _ he)

/-- When `validate_and_create` never raises, no exception escapes
`dispatchGo`. -/
theorem dispatchGo_no_exc (vac : String → String → Except String Unit)
    (runProc : String → List (String × JVal) → Except String ProcOut)
    (result : List (String × JVal))
    (hvac : ∀ p c, ∃ u, vac p c = .ok u) :
    ∀ (actions : List ActionSpec) (evs : List Event),
      (dispatchGo vac runProc result actions evs).2 = none := by
  intro actions
  induction actions with
  | nil => intro evs; rfl
  | cons a rest ih =>
    intro evs
    simp only [dispatchGo]
    by_cases hf : (presentFlags a.output_schema result).isEmpty
    · simp only [hf, if_true]
      exact ih evs
    · simp only [hf, if_false]
      cases hh : a.handler with
      | builtin =>
        by_cases hn : a.name = "auto-calendar"
        · rw [if_pos hn]
          have hexc := psf_no_exc vac hvac
            (dedupFlags (parseFlags ((presentFlags a.output_schema result).headD ("", JVal.null)).2) []) []
          simp only [process_schedule_flags] at *
          rw [hexc]
          exact ih _
        · rw [if_neg hn]
          exact ih _
      | external path =>
        exact ih _

/-- When `validate_and_create` never raises, every action whose output
fields are present and truthy in the result is reached by the dispatch
loop. -/
theorem dispatchGo_reaches (vac : String → String → Except String Unit)
    (runProc : String → List (String × JVal) → Except String ProcOut)
    (result : List (String × JVal))
    (hvac : ∀ p c, ∃ u, vac p c = .ok u) :
    ∀ (actions : List ActionSpec) (evs : List Event) (a : ActionSpec),
      a ∈ actions → (presentFlags a.output_schema result).isEmpty = false →
      dispatched a (dispatchGo vac runProc result actions evs).1 := by
  intro actions
  induction actions with
  | nil => intro evs a ha; cases ha
  | cons b rest ih =>
    intro evs a ha hflags
    rcases List.mem_cons.mp ha with rfl | hrest
    · simp only [dispatchGo, hflags, if_false]
      cases hh : a.handler with
      | builtin =>
        by_cases hn : a.name = "auto-calendar"
        · rw [if_pos hn]
          have hexc := psf_no_exc vac hvac
            (dedupFlags (parseFlags ((presentFlags a.output_schema result).headD ("", JVal.null)).2) []) []
          simp only [process_schedule_flags] at *
          rw [hexc]
          have hmem : Event.builtinRun a.name ∈
              evs ++ [Event.builtinRun a.name] ++
                (psfGo vac (dedupFlags (parseFlags
                  ((presentFlags a.output_schema result).headD ("", JVal.null)).2) []) []).1 :=
            List.mem_append_left _ (List.mem_append_right _ (List.mem_singleton.mpr rfl))
          simp only [dispatched, hh]
          exact Or.inl (dispatchGo_mem_mono vac runProc result rest _ _ hmem)
        · rw [if_neg hn]
          simp only [dispatched, hh]
          refine Or.inr (dispatchGo_mem_mono vac runProc result rest _ _ ?_)
          exact List.mem_append_right _ (List.mem_singleton.mpr rfl)
      | external path =>
        simp only [dispatched, hh, _run_external_handler]
        cases hrun : runProc path (presentFlags a.output_schema result) with
        | ok r =>
          refine Or.inl (dispatchGo_mem_mono vac runProc result rest _ _ ?_)
          exact List.mem_append_right _ (List.mem_append_left _ (List.mem_singleton.mpr rfl))
        | error e =>
          refine Or.inr (dispatchGo_mem_mono vac runProc result rest _ _ ?_)
          exact List.mem_append_right _ (List.mem_singleton.mpr rfl)
    · simp only [dispatchGo]
      by_cases hf : (presentFlags b.output_schema result).isEmpty
      · simp only [hf, if_true]
        exact ih evs a hrest hflags
      · simp only [hf, if_false]
        cases hh : b.handler with
        | builtin =>
          by_cases hn : b.name = "auto-calendar"
          · rw [if_pos hn]
            have hexc := psf_no_exc vac hvac
              (dedupFlags (parseFlags ((presentFlags b.output_schema result).headD ("", JVal.null)).2) []) []
            simp only [process_schedule_flags] at *
            rw [hexc]
            exact ih _ a hrest hflags
          · rw [if_neg hn]
            exact ih _ a hrest hflags
        | external path =>
          exact ih _ a hrest hflags

/-- C8 counterexample: a raised exception in a **built-in** handler is not
caught by `dispatch` — with the scheduling action first and an external
action second, both flagged, the built-in handler's exception escapes and
the external action is never dispatched, contradicting the claim that
built-in handler failures are caught and isolated. -/
theorem c8_builtin_exception_aborts :
    dispatch boomVac okProc [autoCalAction, notifyAction] flaggedResult
        = ([Event.builtinRun "auto-calendar"], some "boom") ∧
      Event.externalRun "notify" "/opt/notify.sh" ∉
        (dispatch boomVac okProc [autoCalAction, notifyAction] flaggedResult).1 ∧
      Event.externalFailWarn "notify" ∉
        (dispatch boomVac okProc [autoCalAction, notifyAction] flaggedResult).1 := by
  refine ⟨rfl, ?_, ?_⟩ <;> decide

/-- C8 (amended): failures of **external** action handlers (non-zero exit,
exception, timeout — all caught inside `_run_external_handler`) are
logged and isolated: whatever the external subprocesses do, no exception
escapes `dispatch` and every action with present, truthy output fields is
dispatched, provided the built-in scheduling handler itself raises no
exception.  (An exception inside the built-in handler, by contrast,
propagates and aborts the remaining actions — see the counterexample.
`dispatch` takes no reference to the topic store, so tree mutations
already applied are unaffected either way.) -/
theorem c8_external_failures_isolated (vac : String → String → Except String Unit)
    (runProc : String → List (String × JVal) → Except String ProcOut)
    (actions : List ActionSpec) (result : List (String × JVal))
    (hvac : ∀ p c, ∃ u, vac p c = .ok u) :
    (dispatch vac runProc actions result).2 = none ∧
      ∀ a ∈ actions, (presentFlags a.output_schema result).isEmpty = false →
        dispatched a (dispatch vac runProc actions result).1 := by
  exact ⟨dispatchGo_no_exc vac runProc result hvac actions [],
    fun a ha hf => dispatchGo_reaches vac runProc result hvac actions [] a ha hf⟩

/-- Witness for C8 (amended): the scheduling action and a failing external
action are both dispatched, and no exception escapes. -/
theorem c8_external_failures_isolated_witness :
    (dispatch okVac boomProc [autoCalAction, notifyAction] flaggedResult).2 = none ∧
      ∀ a ∈ [autoCalAction, notifyAction],
        (presentFlags a.output_schema flaggedResult).isEmpty = false →
        dispatched a (dispatch okVac boomProc [autoCalAction, notifyAction] flaggedResult).1 := by
  exact c8_external_failures_isolated okVac boomProc [autoCalAction, notifyAction]
    flaggedResult (fun _ _ => ⟨(), rfl⟩)

/-- C9 counterexample: with the scheduling action configured but the
oracle result carrying an empty `schedule_flags` array (falsy), `dispatch`
skips the action entirely, so the hold auto-expiry check is **not**
executed on that pass, contradicting the claim that it runs every pass
regardless of flags. -/
theorem c9_no_flags_skips_expiry :
    dispatch okVac okProc [autoCalAction] [("schedule_flags", JVal.arr [])] = ([], none) ∧
      Event.expiryCheck ∉
        (dispatch okVac okProc [autoCalAction] [("schedule_flags", JVal.arr [])]).1 := by
  refine ⟨rfl, ?_⟩
  decide

/-- When `validate_and_create` never raises, a flagged scheduling action
anywhere in the configured list gets its expiry check into the log. -/
theorem dispatchGo_expiry (vac : String → String → Except String Unit)
    (runProc : String → List (String × JVal) → Except String ProcOut)
    (result : List (String × JVal))
    (hvac : ∀ p c, ∃ u, vac p c = .ok u) :
    ∀ (actions : List ActionSpec) (evs : List Event) (a : ActionSpec),
      a ∈ actions → a.handler = Handler.builtin → a.name = "auto-calendar" →
      (presentFlags a.output_schema result).isEmpty = false →
      Event.expiryCheck ∈ (dispatchGo vac runProc result actions evs).1 := by
  intro actions
  induction actions with
  | nil => intro evs a ha; cases ha
  | cons b rest ih =>
    intro evs a ha hh hn hflags
    rcases List.mem_cons.mp ha with rfl | hrest
    · simp only [dispatchGo, hflags, if_false, hh]
      rw [if_pos hn]
      have hexc := psf_no_exc vac hvac
        (dedupFlags (parseFlags ((presentFlags a.output_schema result).headD ("", JVal.null)).2) []) []
      simp only [process_schedule_flags] at *
      rw [hexc]
      refine dispatchGo_mem_mono vac runProc result rest _ _ ?_
      exact List.mem_append_right _ (psf_expiry vac hvac _ [])
    · simp only [dispatchGo]
      by_cases hf : (presentFlags b.output_schema result).isEmpty
      · simp only [hf, if_true]
        exact ih evs a hrest hh hn hflags
      · simp only [hf, if_false]
        cases hb : b.handler with
        | builtin =>
          by_cases hbn : b.name = "auto-calendar"
          · rw [if_pos hbn]
            have hexc := psf_no_exc vac hvac
              (dedupFlags (parseFlags ((presentFlags b.output_schema result).headD ("", JVal.null)).2) []) []
            simp only [process_schedule_flags] at *
            rw [hexc]
            exact ih _ a hrest hh hn hflags
          · rw [if_neg hbn]
            exact ih _ a hrest hh hn hflags
        | external path =>
          exact ih _ a hrest hh hn hflags

/-- C9 (amended): the hold auto-expiry check runs exactly on the passes in
which the scheduling action's output fields are present and truthy in the
oracle result (and the per-flag processing raises no exception); it is
executed then regardless of the flags' contents, but a pass without
flags skips the scheduling handler and with it the expiry check. -/
theorem c9_expiry_runs_when_flagged (vac : String → String → Except String Unit)
    (runProc : String → List (String × JVal) → Except String ProcOut)
    (actions : List ActionSpec) (result : List (String × JVal)) (a : ActionSpec)
    (hvac : ∀ p c, ∃ u, vac p c = .ok u) (ha : a ∈ actions)
    (hh : a.handler = Handler.builtin) (hn : a.name = "auto-calendar")
    (hflags : (presentFlags a.output_schema result).isEmpty = false) :
    Event.expiryCheck ∈ (dispatch vac runProc actions result).1 := by
  exact dispatchGo_expiry vac runProc result hvac actions [] a ha hh hn hflags

/-- Witness for C9 (amended). -/
theorem c9_expiry_runs_when_flagged_witness :
    Event.expiryCheck ∈
      (dispatch okVac okProc [autoCalAction] flaggedResult).1 := by
  exact c9_expiry_runs_when_flagged okVac okProc [autoCalAction] flaggedResult
    autoCalAction (fun _ _ => ⟨(), rfl⟩) (by simp [autoCalAction])
    rfl rfl (by decide)

/-- Everything `markGo` adds beyond its input is either a processed
sibling (a child of the current parent key) or a topic whose parent's id
made it into the final set as well. -/
theorem markGo_inv (sc : Nat → ℚ) (θ : ℚ) (bp : Option Nat → List Topic)
    (q : Option Nat) (recurse : Nat → List Nat → List Nat × Bool)
    (Hfalse : ∀ i inc, (recurse i inc).2 = false → (recurse i inc).1 = inc)
    (Hinv : ∀ i inc x, x ∈ (recurse i inc).1 → x ∈ inc ∨
      (∃ u ∈ bp (some i), u.id = x) ∨
      (∃ u p, u ∈ bp (some p) ∧ u.id = x ∧ p ∈ (recurse i inc).1)) :
    ∀ (l : List Topic) (inc : List Nat), (∀ u ∈ l, u ∈ bp q) →
      ∀ x ∈ (markGo sc θ recurse l inc).1, x ∈ inc ∨
        (∃ u ∈ bp q, u.id = x) ∨
        (∃ u p, u ∈ bp (some p) ∧ u.id = x ∧
          p ∈ (markGo sc θ recurse l inc).1) := by
  intro l
  induction l with
  | nil => intro inc hl x hx; exact Or.inl hx
  | cons t rest ih =>
    intro inc hl x hx
    by_cases hc : θ ≤ sc t.id ∨ (recurse t.id inc).2 = true
    · simp only [markGo, if_pos hc] at hx ⊢
      rcases List.mem_cons.mp hx with rfl | hx'
      · exact Or.inr (Or.inl ⟨t, hl t (List.mem_cons_self t rest), rfl⟩)
      · rcases Hinv t.id inc x hx' with h1 | ⟨u, hu, hux⟩ | ⟨u, p, hu, hux, hp⟩
        · exact Or.inl h1
        · exact Or.inr (Or.inr ⟨u, t.id, hu, hux, List.mem_cons_self _ _⟩)
        · exact Or.inr (Or.inr ⟨u, p, hu, hux, List.mem_cons_of_mem _ hp⟩)
    · simp only [markGo, if_neg hc] at hx ⊢
      have h2 : (recurse t.id inc).2 = false := by
        cases hb : (recurse t.id inc).2
        · rfl
        · exact absurd (Or.inr hb) hc
      rw [Hfalse t.id inc h2] at hx ⊢
      exact ih inc (fun u hu => hl u (List.mem_cons_of_mem _ hu)) x hx

/-- The `_mark_active` closure invariant: every id in the result is in the
initial set, is a child of the call's parent key, or has its parent id in
the result. -/
theorem markActive_inv (bp : Option Nat → List Topic) (sc : Nat → ℚ) (θ : ℚ) :
    ∀ (fuel : Nat) (q : Option Nat) (inc : List Nat) (x : Nat),
      x ∈ (markActive bp sc θ fuel q inc).1 → x ∈ inc ∨
        (∃ u ∈ bp q, u.id = x) ∨
        (∃ u p, u ∈ bp (some p) ∧ u.id = x ∧
          p ∈ (markActive bp sc θ fuel q inc).1) := by
  intro fuel
  induction fuel with
  | zero => intro q inc x hx; exact Or.inl hx
  | succ n ih =>
    intro q inc x hx
    exact markGo_inv sc θ bp q _
      (fun i inc' => markActive_false_unchanged bp sc θ n (some i) inc')
      (fun i inc' => ih (some i) inc') (bp q) inc (fun u hu => hu) x hx

/-- Ancestor closure of the pruned-output `include` set: an included
non-root topic has its parent's id included as well. -/
theorem includedSet_parent (topics : List Topic) (sc : Nat → ℚ) (θ : ℚ)
    (hids : (topics.map (·.id)).Nodup) (t : Topic) (ht : t ∈ topics)
    (hinc : t.id ∈ includedSet topics sc θ) :
    t.parent_id = none ∨
      ∃ p, t.parent_id = some p ∧ p ∈ includedSet topics sc θ := by
  have idinj := List.inj_on_of_nodup_map hids
  simp only [includedSet] at hinc ⊢
  rcases markActive_inv (byParent topics) sc θ (topics.length + 1) none
      ((byParent topics none).map (·.id)) t.id hinc with h1 | ⟨u, hu, hux⟩ | ⟨u, p, hu, hux, hp⟩
  · obtain ⟨r, hr, hrid⟩ := List.mem_map.mp h1
    have hrmem := List.mem_filter.mp hr
    have hr_eq : r = t := idinj hrmem.1 ht hrid
    left
    rw [← hr_eq]
    simpa using hrmem.2
  · have humem := List.mem_filter.mp hu
    have hu_eq : u = t := idinj humem.1 ht hux
    left
    rw [← hu_eq]
    simpa using humem.2
  · have humem := List.mem_filter.mp hu
    have hu_eq : u = t := idinj humem.1 ht hux
    right
    refine ⟨p, ?_, hp⟩
    rw [← hu_eq]
    simpa using humem.2

/-- The subtree render of an included list member sits inside the list's
render. -/
theorem renderGo_sub (inc : List Nat) (recurse : Nat → Nat → List Entry)
    (indent : Nat) (t : Topic) :
    ∀ l, t ∈ l → t.id ∈ inc → ∀ e ∈ recurse t.id (indent + 1),
      e ∈ renderGo inc recurse indent l := by
  intro l
  induction l with
  | nil => intro h; cases h
  | cons u rest ih =>
    intro hmem hinc e he
    rcases List.mem_cons.mp hmem with rfl | hrest
    · simp only [renderGo, if_pos hinc]
      exact List.mem_cons_of_mem _ (List.mem_append_left _ he)
    · by_cases hu : u.id ∈ inc
      · simp only [renderGo, if_pos hu]
        exact List.mem_cons_of_mem _ (List.mem_append_right _ (ih hrest hinc e he))
      · simp only [renderGo, if_neg hu]
        exact ih hrest hinc e he

/-- `renderGo` is monotone in its recursive-call argument. -/
theorem renderGo_mono_rec (inc : List Nat) (r₁ r₂ : Nat → Nat → List Entry)
    (h : ∀ i ind, ∀ e ∈ r₁ i ind, e ∈ r₂ i ind) (indent : Nat) :
    ∀ l, ∀ e ∈ renderGo inc r₁ indent l, e ∈ renderGo inc r₂ indent l := by
  intro l
  induction l with
  | nil => intro e he; cases he
  | cons u rest ih =>
    intro e he
    by_cases hu : u.id ∈ inc
    · simp only [renderGo, if_pos hu] at he ⊢
      rcases List.mem_cons.mp he with rfl | he'
      · exact List.mem_cons_self _ _
      · rcases List.mem_append.mp he' with h1 | h2
        · exact List.mem_cons_of_mem _ (List.mem_append_left _ (h u.id _ e h1))
        · exact List.mem_cons_of_mem _ (List.mem_append_right _ (ih e h2))
    · simp only [renderGo, if_neg hu] at he ⊢
      exact ih e he

/-- More fuel renders a superset of entries. -/
theorem renderTree_fuel_mono (bp : Option Nat → List Topic) (inc : List Nat) :
    ∀ (f₁ f₂ : Nat), f₁ ≤ f₂ → ∀ (q : Option Nat) (ind : Nat),
      ∀ e ∈ renderTree bp inc f₁ q ind, e ∈ renderTree bp inc f₂ q ind := by
  intro f₁
  induction f₁ with
  | zero => intro f₂ h q ind e he; cases he
  | succ n ih =>
    intro f₂ h q ind e he
    obtain ⟨g, rfl⟩ : ∃ g, f₂ = g + 1 := ⟨f₂ - 1, by omega⟩
    simp only [renderTree] at he ⊢
    exact renderGo_mono_rec inc _ _
      (fun i ind' e' he' => ih g (by omega) (some i) ind' e' he') ind (bp q) e he

/-- Reachability in the pruned-output view: on an acyclic forest with
resolvable parents and unique ids, every included topic produces its line
in the rendered entries, and its whole subtree render (at its sufficient
fuel) is contained in the rendered entries. -/
theorem output_reach (topics : List Topic) (sc : Nat → ℚ) (θ : ℚ)
    (depth : Nat → Nat) (hids : (topics.map (·.id)).Nodup)
    (hdepth : ∀ u ∈ topics, ∀ p, u.parent_id = some p → depth p < depth u.id)
    (hbound : ∀ u ∈ topics, depth u.id < topics.length)
    (hparents : ∀ u ∈ topics, ∀ p, u.parent_id = some p → ∃ v ∈ topics, v.id = p) :
    ∀ (m : Nat) (t : Topic), t ∈ topics → depth t.id ≤ m →
      t.id ∈ includedSet topics sc θ →
      ∃ ind, (ind, displayOf t, t.summary) ∈ outputEntries topics sc θ ∧
        ∀ e ∈ renderTree (byParent topics) (includedSet topics sc θ)
            (topics.length - depth t.id) (some t.id) (ind + 1),
          e ∈ outputEntries topics sc θ := by
  have root_case : ∀ (t : Topic), t ∈ topics → t.parent_id = none →
      t.id ∈ includedSet topics sc θ →
      ∃ ind, (ind, displayOf t, t.summary) ∈ outputEntries topics sc θ ∧
        ∀ e ∈ renderTree (byParent topics) (includedSet topics sc θ)
            (topics.length - depth t.id) (some t.id) (ind + 1),
          e ∈ outputEntries topics sc θ := by
    intro t ht hroot hinc
    have hbp : t ∈ byParent topics none := by
      simp only [byParent, List.mem_filter]
      exact ⟨ht, by simp [hroot]⟩
    refine ⟨0, ?_, ?_⟩
    · simp only [outputEntries, renderTree]
      exact renderGo_mem _ _ 0 t (byParent topics none) hbp hinc
    · intro e he
      have he' := renderTree_fuel_mono (byParent topics) (includedSet topics sc θ)
        (topics.length - depth t.id) topics.length (by omega) (some t.id) 1 e he
      simp only [outputEntries, renderTree]
      exact renderGo_sub _ _ 0 t (byParent topics none) hbp hinc e he'
  intro m
  induction m with
  | zero =>
    intro t ht hdep hinc
    rcases includedSet_parent topics sc θ hids t ht hinc with hroot | ⟨p, hp, hpinc⟩
    · exact root_case t ht hroot hinc
    · obtain ⟨v, hv, hvid⟩ := hparents t ht p hp
      have := hdepth t ht p hp
      have := hbound v hv
      omega
  | succ n ih =>
    intro t ht hdep hinc
    rcases includedSet_parent topics sc θ hids t ht hinc with hroot | ⟨p, hp, hpinc⟩
    · exact root_case t ht hroot hinc
    · obtain ⟨v, hv, hvid⟩ := hparents t ht p hp
      subst hvid
      have hdp : depth v.id < depth t.id := hdepth t ht v.id hp
      have hbv : depth v.id < topics.length := hbound v hv
      have hbt : depth t.id < topics.length := hbound t ht
      obtain ⟨ind_p, hv_entry, hv_sub⟩ := ih v hv (by omega) hpinc
      obtain ⟨g, hg⟩ : ∃ g, topics.length - depth v.id = g + 1 :=
        ⟨topics.length - depth v.id - 1, by omega⟩
      have htbp : t ∈ byParent topics (some v.id) := by
        simp only [byParent, List.mem_filter]
        refine ⟨ht, ?_⟩
        rw [hp]
        simp
      have hsub_vchildren : ∀ e ∈ renderGo (includedSet topics sc θ)
          (fun i ind => renderTree (byParent topics) (includedSet topics sc θ) g (some i) ind)
          (ind_p + 1) (byParent topics (some v.id)),
          e ∈ outputEntries topics sc θ := by
        intro e he
        apply hv_sub
        rw [hg]
        simpa only [renderTree] using he
      refine ⟨ind_p + 1, ?_, ?_⟩
      · exact hsub_vchildren _ (renderGo_mem _ _ (ind_p + 1) t _ htbp hinc)
      · intro e he
        have he' := renderTree_fuel_mono (byParent topics) (includedSet topics sc θ)
          (topics.length - depth t.id) g (by omega) (some t.id) (ind_p + 1 + 1) e he
        exact hsub_vchildren e (renderGo_sub _ _ (ind_p + 1) t _ htbp hinc e he')

/-- Every topic of the processed list gets its routing line. -/
theorem routingGo_mem (sc : Nat → ℚ) (θ : ℚ) (recurse : Nat → Nat → List Entry)
    (indent : Nat) (t : Topic) :
    ∀ l, t ∈ l →
      (indent, t.name,
        if θ ≤ sc t.id ∧ truthyStr t.summary = true then t.summary else none)
        ∈ routingGo sc θ recurse indent l := by
  intro l
  induction l with
  | nil => intro h; cases h
  | cons u rest ih =>
    intro hmem
    rcases List.mem_cons.mp hmem with rfl | hrest
    · exact List.mem_cons_self _ _
    · exact List.mem_cons_of_mem _ (List.mem_append_right _ (ih hrest))

/-- The subtree render of a list member sits inside the routing render. -/
theorem routingGo_sub (sc : Nat → ℚ) (θ : ℚ) (recurse : Nat → Nat → List Entry)
    (indent : Nat) (t : Topic) :
    ∀ l, t ∈ l → ∀ e ∈ recurse t.id (indent + 1),
      e ∈ routingGo sc θ recurse indent l := by
  intro l
  induction l with
  | nil => intro h; cases h
  | cons u rest ih =>
    intro hmem e he
    rcases List.mem_cons.mp hmem with rfl | hrest
    · exact List.mem_cons_of_mem _ (List.mem_append_left _ he)
    · exact List.mem_cons_of_mem _ (List.mem_append_right _ (ih hrest e he))

/-- `routingGo` is monotone in its recursive-call argument. -/
theorem routingGo_mono_rec (sc : Nat → ℚ) (θ : ℚ) (r₁ r₂ : Nat → Nat → List Entry)
    (h : ∀ i ind, ∀ e ∈ r₁ i ind, e ∈ r₂ i ind) (indent : Nat) :
    ∀ l, ∀ e ∈ routingGo sc θ r₁ indent l, e ∈ routingGo sc θ r₂ indent l := by
  intro l
  induction l with
  | nil => intro e he; cases he
  | cons u rest ih =>
    intro e he
    rcases List.mem_cons.mp he with rfl | he'
    · exact List.mem_cons_self _ _
    · rcases List.mem_append.mp he' with h1 | h2
      · exact List.mem_cons_of_mem _ (List.mem_append_left _ (h u.id _ e h1))
      · exact List.mem_cons_of_mem _ (List.mem_append_right _ (ih e h2))

/-- More fuel renders a superset of routing entries. -/
theorem routingTree_fuel_mono (bp : Option Nat → List Topic) (sc : Nat → ℚ) (θ : ℚ) :
    ∀ (f₁ f₂ : Nat), f₁ ≤ f₂ → ∀ (q : Option Nat) (ind : Nat),
      ∀ e ∈ routingTree bp sc θ f₁ q ind, e ∈ routingTree bp sc θ f₂ q ind := by
  intro f₁
  induction f₁ with
  | zero => intro f₂ h q ind e he; cases he
  | succ n ih =>
    intro f₂ h q ind e he
    obtain ⟨g, rfl⟩ : ∃ g, f₂ = g + 1 := ⟨f₂ - 1, by omega⟩
    simp only [routingTree] at he ⊢
    exact routingGo_mono_rec sc θ _ _
      (fun i ind' e' he' => ih g (by omega) (some i) ind' e' he') ind (bp q) e he

/-- Reachability in the routing view: on an acyclic forest with resolvable
parents, every stored topic produces its line (under its slug), and its
subtree render is contained in the rendered entries. -/
theorem routing_reach (topics : List Topic) (sc : Nat → ℚ) (θ : ℚ)
    (depth : Nat → Nat)
    (hdepth : ∀ u ∈ topics, ∀ p, u.parent_id = some p → depth p < depth u.id)
    (hbound : ∀ u ∈ topics, depth u.id < topics.length)
    (hparents : ∀ u ∈ topics, ∀ p, u.parent_id = some p → ∃ v ∈ topics, v.id = p) :
    ∀ (m : Nat) (t : Topic), t ∈ topics → depth t.id ≤ m →
      ∃ ind s, (ind, t.name, s) ∈ routingEntries topics sc θ ∧
        ∀ e ∈ routingTree (byParent topics) sc θ
            (topics.length - depth t.id) (some t.id) (ind + 1),
          e ∈ routingEntries topics sc θ := by
  have root_case : ∀ (t : Topic), t ∈ topics → t.parent_id = none →
      ∃ ind s, (ind, t.name, s) ∈ routingEntries topics sc θ ∧
        ∀ e ∈ routingTree (byParent topics) sc θ
            (topics.length - depth t.id) (some t.id) (ind + 1),
          e ∈ routingEntries topics sc θ := by
    intro t ht hroot
    have hbp : t ∈ byParent topics none := by
      simp only [byParent, List.mem_filter]
      exact ⟨ht, by simp [hroot]⟩
    refine ⟨0, if θ ≤ sc t.id ∧ truthyStr t.summary = true then t.summary else none, ?_, ?_⟩
    · simp only [routingEntries, routingTree]
      exact routingGo_mem sc θ _ 0 t (byParent topics none) hbp
    · intro e he
      have he' := routingTree_fuel_mono (byParent topics) sc θ
        (topics.length - depth t.id) topics.length (by omega) (some t.id) 1 e he
      simp only [routingEntries, routingTree]
      exact routingGo_sub sc θ _ 0 t (byParent topics none) hbp e he'
  intro m
  induction m with
  | zero =>
    intro t ht hdep
    cases hpar : t.parent_id with
    | none => exact root_case t ht hpar
    | some p =>
      have := hdepth t ht p hpar
      omega
  | succ n ih =>
    intro t ht hdep
    cases hpar : t.parent_id with
    | none => exact root_case t ht hpar
    | some p =>
      obtain ⟨v, hv, hvid⟩ := hparents t ht p hpar
      subst hvid
      have hdp : depth v.id < depth t.id := hdepth t ht v.id hpar
      have hbv : depth v.id < topics.length := hbound v hv
      have hbt : depth t.id < topics.length := hbound t ht
      obtain ⟨ind_p, s_p, hv_entry, hv_sub⟩ := ih v hv (by omega)
      obtain ⟨g, hg⟩ : ∃ g, topics.length - depth v.id = g + 1 :=
        ⟨topics.length - depth v.id - 1, by omega⟩
      have htbp : t ∈ byParent topics (some v.id) := by
        simp only [byParent, List.mem_filter]
        refine ⟨ht, ?_⟩
        rw [hpar]
        simp
      have hsub_vchildren : ∀ e ∈ routingGo sc θ
          (fun i ind => routingTree (byParent topics) sc θ g (some i) ind)
          (ind_p + 1) (byParent topics (some v.id)),
          e ∈ routingEntries topics sc θ := by
        intro e he
        apply hv_sub
        rw [hg]
        simpa only [routingTree] using he
      refine ⟨ind_p + 1,
        if θ ≤ sc t.id ∧ truthyStr t.summary = true then t.summary else none, ?_, ?_⟩
      · exact hsub_vchildren _ (routingGo_mem sc θ _ (ind_p + 1) t _ htbp)
      · intro e he
        have he' := routingTree_fuel_mono (byParent topics) sc θ
          (topics.length - depth t.id) g (by omega) (some t.id) (ind_p + 1 + 1) e he
        exact hsub_vchildren e (routingGo_sub sc θ _ (ind_p + 1) t _ htbp e he')

/-- Every shown name in the pruned-output render is some stored topic's
display name (with slug fallback). -/
theorem renderGo_shown (topics : List Topic) (inc : List Nat)
    (recurse : Nat → Nat → List Entry) (ind : Nat)
    (Hrec : ∀ i ind' e, e ∈ recurse i ind' → ∃ u ∈ topics, e.2.1 = displayOf u) :
    ∀ l, (∀ u ∈ l, u ∈ topics) →
      ∀ e ∈ renderGo inc recurse ind l, ∃ u ∈ topics, e.2.1 = displayOf u := by
  intro l
  induction l with
  | nil => intro hl e he; cases he
  | cons u rest ih =>
    intro hl e he
    by_cases hu : u.id ∈ inc
    · simp only [renderGo, if_pos hu] at he
      rcases List.mem_cons.mp he with rfl | he'
      · exact ⟨u, hl u (List.mem_cons_self _ _), rfl⟩
      · rcases List.mem_append.mp he' with h1 | h2
        · exact Hrec u.id _ e h1
        · exact ih (fun x hx => hl x (List.mem_cons_of_mem _ hx)) e h2
    · simp only [renderGo, if_neg hu] at he
      exact ih (fun x hx => hl x (List.mem_cons_of_mem _ hx)) e he

/-- Every shown name in the full pruned-output render is some stored
topic's display name. -/
theorem renderTree_shown (topics : List Topic) (inc : List Nat) :
    ∀ (fuel : Nat) (q : Option Nat) (ind : Nat),
      ∀ e ∈ renderTree (byParent topics) inc fuel q ind,
        ∃ u ∈ topics, e.2.1 = displayOf u := by
  intro fuel
  induction fuel with
  | zero => intro q ind e he; cases he
  | succ n ih =>
    intro q ind e he
    simp only [renderTree] at he
    exact renderGo_shown topics inc _ ind (fun i ind' e' he' => ih (some i) ind' e' he')
      (byParent topics q) (fun u hu => (List.mem_filter.mp hu).1) e he

/-- Every shown name in the routing render is some stored topic's slug. -/
theorem routingGo_shown (topics : List Topic) (sc : Nat → ℚ) (θ : ℚ)
    (recurse : Nat → Nat → List Entry) (ind : Nat)
    (Hrec : ∀ i ind' e, e ∈ recurse i ind' → ∃ u ∈ topics, e.2.1 = u.name) :
    ∀ l, (∀ u ∈ l, u ∈ topics) →
      ∀ e ∈ routingGo sc θ recurse ind l, ∃ u ∈ topics, e.2.1 = u.name := by
  intro l
  induction l with
  | nil => intro hl e he; cases he
  | cons u rest ih =>
    intro hl e he
    rcases List.mem_cons.mp he with rfl | he'
    · exact ⟨u, hl u (List.mem_cons_self _ _), rfl⟩
    · rcases List.mem_append.mp he' with h1 | h2
      · exact Hrec u.id _ e h1
      · exact ih (fun x hx => hl x (List.mem_cons_of_mem _ hx)) e h2

/-- Every shown name in the full routing render is some stored topic's
slug. -/
theorem routingTree_shown (topics : List Topic) (sc : Nat → ℚ) (θ : ℚ) :
    ∀ (fuel : Nat) (q : Option Nat) (ind : Nat),
      ∀ e ∈ routingTree (byParent topics) sc θ fuel q ind,
        ∃ u ∈ topics, e.2.1 = u.name := by
  intro fuel
  induction fuel with
  | zero => intro q ind e he; cases he
  | succ n ih =>
    intro q ind e he
    simp only [routingTree] at he
    exact routingGo_shown topics sc θ _ ind (fun i ind' e' he' => ih (some i) ind' e' he')
      (byParent topics q) (fun u hu => (List.mem_filter.mp hu).1) e he

/-- C7: on an acyclic store with resolvable parents and unique ids, a
topic with a display name that is included in the pruned-output view
appears there under its display name (with its summary), appears in the
routing view under its slug, and never the reverse: every pruned-output
line shows some topic's display name (slug fallback) and every routing
line shows some topic's slug.  The display-name fallback of the output
view is `Modelled from the spec:` (§4.3 "Display uses display_name when
present, else slug"); the routing view's slug-only display is the `src/`
code's behaviour. -/
theorem c7_display_name_round_trip (topics : List Topic) (sc : Nat → ℚ) (θ : ℚ)
    (depth : Nat → Nat) (t : Topic) (d : String)
    (hids : (topics.map (·.id)).Nodup)
    (hdepth : ∀ u ∈ topics, ∀ p, u.parent_id = some p → depth p < depth u.id)
    (hbound : ∀ u ∈ topics, depth u.id < topics.length)
    (hparents : ∀ u ∈ topics, ∀ p, u.parent_id = some p → ∃ v ∈ topics, v.id = p)
    (ht : t ∈ topics) (hd : t.display_name = some d)
    (hinc : t.id ∈ includedSet topics sc θ) :
    (∃ n, (n, d, t.summary) ∈ outputEntries topics sc θ) ∧
      (∃ n s, (n, t.name, s) ∈ routingEntries topics sc θ) ∧
      (∀ e ∈ outputEntries topics sc θ, ∃ u ∈ topics, e.2.1 = displayOf u) ∧
      (∀ e ∈ routingEntries topics sc θ, ∃ u ∈ topics, e.2.1 = u.name) := by
  have hdisp : displayOf t = d := by simp [displayOf, hd]
  refine ⟨?_, ?_, ?_, ?_⟩
  · obtain ⟨ind, hentry, -⟩ := output_reach topics sc θ depth hids hdepth hbound
      hparents (depth t.id) t ht le_rfl hinc
    exact ⟨ind, hdisp ▸ hentry⟩
  · obtain ⟨ind, s, hentry, -⟩ := routing_reach topics sc θ depth hdepth hbound
      hparents (depth t.id) t ht le_rfl
    exact ⟨ind, s, hentry⟩
  · intro e he
    simp only [outputEntries] at he
    exact renderTree_shown topics _ _ none 0 e he
  · intro e he
    simp only [routingEntries] at he
    exact routingTree_shown topics sc θ _ none 0 e he

/-- Witness for C7: a single displayed root topic. -/
theorem c7_display_name_round_trip_witness :
    (∃ n, (n, "AI and Coding", some "AI stuff")
        ∈ outputEntries displayTopics (fun _ => 1) DECAY_THRESHOLD) ∧
      (∃ n s, (n, "ai-and-coding", s)
        ∈ routingEntries displayTopics (fun _ => 1) DECAY_THRESHOLD) ∧
      (∀ e ∈ outputEntries displayTopics (fun _ => 1) DECAY_THRESHOLD,
        ∃ u ∈ displayTopics, e.2.1 = displayOf u) ∧
      (∀ e ∈ routingEntries displayTopics (fun _ => 1) DECAY_THRESHOLD,
        ∃ u ∈ displayTopics, e.2.1 = u.name) := by
  have h := c7_display_name_round_trip displayTopics (fun _ => 1) DECAY_THRESHOLD
    (fun _ => 0) ⟨1, "ai-and-coding", none, some "AI stuff", some "AI and Coding"⟩
    "AI and Coding" (by decide)
    (by
      intro u hu p hp
      simp only [displayTopics, List.mem_cons, List.not_mem_nil, or_false] at hu
      subst hu
      exact Option.noConfusion hp)
    (by decide)
    (by
      intro u hu p hp
      simp only [displayTopics, List.mem_cons, List.not_mem_nil, or_false] at hu
      subst hu
      exact Option.noConfusion hp)
    (by simp [displayTopics]) rfl
    (root_mem_includedSet displayTopics (fun _ => 1) DECAY_THRESHOLD
      ⟨1, "ai-and-coding", none, some "AI stuff", some "AI and Coding"⟩
      (by simp [displayTopics]) rfl)
  simpa using h

end Mem
